import Mathlib

/-! TypedMap.

A shallow embedding of `typed_map.h`: the heterogeneous container
`utils::map::TypedMap<Constraints, Types...>` together with the parts of
`std::map`, `std::set`, `std::vector` and `std::variant` it is built from.

* `std::map<κ, ν>` and `std::set<α>` are the lists of their elements in iteration
  order.  A list is a state of such a container exactly when it is strictly
  ascending (`StdMap.WF`, `StdSet.WF`); the operations walk the list with the
  comparison `<` only, as the search tree of the library does with `std::less`.
* `std::vector<int>` is `List Int`, `push_back` appends at the end.
* The variant is the one of the instantiation used in `typed_map_test.cpp`:
  `std::variant<std::monostate, int, char, bool, std::vector<int>,
  std::map<int, int>, std::set<int>>`.
* A member template `F<enum_value>` is a function of `desired_type`, the type
  `Constraints::TypeOf<enum_value>::type` the template resolves, and of
  `enum_value`.  Mutating members return the state after the call.
-/

namespace utils.map

/-! ## `std::set` -/

/-- Elements of a `std::set<α>` in iteration order. -/
abbrev StdSet (α : Type) := List α

/-- Representation invariant of `std::set`: strictly ascending elements. -/
def StdSet.WF {α : Type} [LinearOrder α] (s : StdSet α) : Prop :=
  List.Pairwise (fun a b => a < b) s

instance StdSet.decidableWF {α : Type} [LinearOrder α] (s : StdSet α) :
    Decidable (StdSet.WF s) :=
  inferInstanceAs (Decidable (List.Pairwise (fun a b => a < b) s))

/-- Member `std::set::insert(value)`: the element goes to its place in the order,
and nothing changes when an equivalent element is already there. -/
def StdSet.insert {α : Type} [LinearOrder α] (value : α) : StdSet α → StdSet α
  | [] => [value]
  | y :: ys =>
    if value < y then value :: y :: ys
    else if y < value then y :: StdSet.insert value ys
    else y :: ys

/-- Range constructor `std::set(first, last)`: inserts the elements one by one. -/
def StdSet.ofRange {α : Type} [LinearOrder α] (range : List α) : StdSet α :=
  range.foldl (fun s x => StdSet.insert x s) []

/-! ## `std::map` -/

/-- Entries of a `std::map<κ, ν>` in iteration order. -/
abbrev StdMap (κ ν : Type) := List (κ × ν)

/-- Representation invariant of `std::map`: strictly ascending keys. -/
def StdMap.WF {κ ν : Type} [LinearOrder κ] (m : StdMap κ ν) : Prop :=
  List.Pairwise (fun a b => a < b) (m.map Prod.fst)

instance StdMap.decidableWF {κ ν : Type} [LinearOrder κ] (m : StdMap κ ν) :
    Decidable (StdMap.WF m) :=
  inferInstanceAs (Decidable (List.Pairwise (fun a b => a < b) (m.map Prod.fst)))

/-- Member `std::map::find(key)`, with `none` for `end()` and the mapped value
(`it->second`) otherwise. -/
def StdMap.find {κ ν : Type} [LinearOrder κ] (key : κ) : StdMap κ ν → Option ν
  | [] => none
  | (a, b) :: rest =>
    if key < a then none
    else if a < key then StdMap.find key rest
    else some b

/-- Statement `m[key] = value`: the mapped value of an existing entry is assigned,
a missing entry is created at its place in the key order. -/
def StdMap.insertOrAssign {κ ν : Type} [LinearOrder κ] (key : κ) (value : ν) :
    StdMap κ ν → StdMap κ ν
  | [] => [(key, value)]
  | (a, b) :: rest =>
    if key < a then (key, value) :: (a, b) :: rest
    else if a < key then (a, b) :: StdMap.insertOrAssign key value rest
    else (a, value) :: rest

/-- Member `std::map::insert(pair)`: an existing entry with that key is kept as it is. -/
def StdMap.insert {κ ν : Type} [LinearOrder κ] (key : κ) (value : ν) :
    StdMap κ ν → StdMap κ ν
  | [] => [(key, value)]
  | (a, b) :: rest =>
    if key < a then (key, value) :: (a, b) :: rest
    else if a < key then (a, b) :: StdMap.insert key value rest
    else (a, b) :: rest

/-- Member `std::map::erase(key)`: removes the entry with that key, if there is one. -/
def StdMap.erase {κ ν : Type} [LinearOrder κ] (key : κ) : StdMap κ ν → StdMap κ ν
  | [] => []
  | (a, b) :: rest =>
    if key < a then (a, b) :: rest
    else if a < key then (a, b) :: StdMap.erase key rest
    else rest

/-- The view `m | std::views::keys`. -/
def StdMap.keys {κ ν : Type} (m : StdMap κ ν) : List κ :=
  m.map Prod.fst

/-! ## Payload types and the variant -/

/-- The pack `Types...` of the instantiation
`TypedMap<Constraints, int, char, bool, std::vector<int>, std::map<int, int>, std::set<int>>`. -/
inductive Ty where
  | int
  | char
  | bool
  | vector
  | map
  | set
  deriving DecidableEq, Repr

/-- The C++ type a member of the pack stands for. -/
@[reducible]
def Ty.type : Ty → Type
  | .int => Int
  | .char => Char
  | .bool => Bool
  | .vector => List Int
  | .map => StdMap Int Int
  | .set => StdSet Int

/-- Value initialisation `T()`: zero for the scalars, empty for the containers. -/
def Ty.default : (T : Ty) → T.type
  | .int => (0 : Int)
  | .char => Char.ofNat 0
  | .bool => false
  | .vector => ([] : List Int)
  | .map => ([] : StdMap Int Int)
  | .set => ([] : StdSet Int)

/-- The concept `internal::IsContainer<T>`: `t.empty()` is well formed. -/
def internal.IsContainer : Ty → Bool
  | .int => false
  | .char => false
  | .bool => false
  | .vector => true
  | .map => true
  | .set => true

/-- The member type `T::value_type` of a container; a scalar has none, so no call
of `Add` is instantiated for it. -/
@[reducible]
def Ty.value_type : Ty → Type
  | .int => Empty
  | .char => Empty
  | .bool => Empty
  | .vector => Int
  | .map => Int × Int
  | .set => Int

/-- The type `std::variant<std::monostate, int, char, bool, std::vector<int>,
std::map<int, int>, std::set<int>>`. -/
inductive Variant where
  | monostate
  | int (i : Int)
  | char (c : Char)
  | bool (b : Bool)
  | vector (v : List Int)
  | map (m : StdMap Int Int)
  | set (s : StdSet Int)
  deriving DecidableEq, Repr

/-- Converting assignment `variant = value` for a value of exactly the type `T`. -/
def Variant.ofType : (T : Ty) → T.type → Variant
  | .int, x => .int x
  | .char, x => .char x
  | .bool, x => .bool x
  | .vector, x => .vector x
  | .map, x => .map x
  | .set, x => .set x

/-- The function `std::holds_alternative<T>(v)`. -/
def Variant.holds_alternative : (T : Ty) → Variant → Bool
  | .int, .int _ => true
  | .char, .char _ => true
  | .bool, .bool _ => true
  | .vector, .vector _ => true
  | .map, .map _ => true
  | .set, .set _ => true
  | _, _ => false

/-- The function `std::get<T>(v)`; `none` stands for `std::bad_variant_access`. -/
def Variant.get : (T : Ty) → Variant → Option T.type
  | .int, .int x => some x
  | .char, .char x => some x
  | .bool, .bool x => some x
  | .vector, .vector x => some x
  | .map, .map x => some x
  | .set, .set x => some x
  | _, _ => none

/-! ## `TypedMap::StorageType` -/

/-- The class `TypedMap::StorageType`: one variant, default constructed to
`std::monostate`. -/
structure StorageType where
  internal_storage_ : Variant := Variant.monostate
  deriving DecidableEq, Repr

instance : Inhabited StorageType := ⟨{}⟩

/-- Member `StorageType::Get<enum_value>()`, an `std::optional<desired_type>`. -/
def StorageType.Get (desired_type : Ty) (s : StorageType) : Option desired_type.type :=
  if Variant.holds_alternative desired_type s.internal_storage_ then
    Variant.get desired_type s.internal_storage_
  else none

/-- Member `StorageType::Get<enum_value>(key)`; `desired_type` is the mapping type,
the only member of the pack with a `mapped_type`. -/
def StorageType.GetAt (key : Int) (s : StorageType) : Option Int :=
  if Variant.holds_alternative .map s.internal_storage_ then
    match Variant.get .map s.internal_storage_ with
    | some stored => StdMap.find key stored
    | none => none
  else none

/-- Member `StorageType::Set<enum_value>(value)`: `enum_value` is not used, the
variant takes the alternative of the type of `value`. -/
def StorageType.Set (value : Variant) (_s : StorageType) : StorageType :=
  { internal_storage_ := value }

/-- Member `StorageType::Set<enum_value>(key, value)` for the mapping type. -/
def StorageType.SetAt (key : Int) (value : Int) (s : StorageType) : StorageType :=
  if Variant.holds_alternative .map s.internal_storage_ then
    match Variant.get .map s.internal_storage_ with
    | some stored => { internal_storage_ := .map (StdMap.insertOrAssign key value stored) }
    | none => s
  else { internal_storage_ := .map [(key, value)] }

/-- Guard shared by `Mutable` and `Add`:
`if (!holds_alternative<desired_type>(s)) s = desired_type();`. -/
def StorageType.ensure (desired_type : Ty) (s : StorageType) : StorageType :=
  if !Variant.holds_alternative desired_type s.internal_storage_ then
    { internal_storage_ := Variant.ofType desired_type desired_type.default }
  else s

/-- Member `StorageType::Add<enum_value>(value)`: `push_back` where the stored type has
it (the vector), `insert` otherwise (the set and the mapping). -/
def StorageType.Add : (desired_type : Ty) → desired_type.value_type → StorageType → StorageType
  | .vector, value, s =>
    match Variant.get .vector (StorageType.ensure .vector s).internal_storage_ with
    | some stored => { internal_storage_ := .vector (stored ++ [value]) }
    | none => StorageType.ensure .vector s
  | .set, value, s =>
    match Variant.get .set (StorageType.ensure .set s).internal_storage_ with
    | some stored => { internal_storage_ := .set (StdSet.insert value stored) }
    | none => StorageType.ensure .set s
  | .map, value, s =>
    match Variant.get .map (StorageType.ensure .map s).internal_storage_ with
    | some stored => { internal_storage_ := .map (StdMap.insert value.1 value.2 stored) }
    | none => StorageType.ensure .map s
  | .int, value, _ => nomatch value
  | .char, value, _ => nomatch value
  | .bool, value, _ => nomatch value

/-- Member `StorageType::Mutable<enum_value>()`, followed by the caller's write
`edit` through the returned reference (`id` when the caller writes nothing). -/
def StorageType.Mutable (desired_type : Ty) (edit : desired_type.type → desired_type.type)
    (s : StorageType) : StorageType :=
  match Variant.get desired_type (StorageType.ensure desired_type s).internal_storage_ with
  | some stored => { internal_storage_ := Variant.ofType desired_type (edit stored) }
  | none => StorageType.ensure desired_type s

/-! ## `TypedMap` -/

/-- The class `TypedMap<Constraints, Types...>` over the enumeration `EnumType`. -/
structure TypedMap (EnumType : Type) where
  storage_ : StdMap EnumType StorageType := []
  deriving DecidableEq

namespace TypedMap

variable {EnumType : Type} [LinearOrder EnumType]

/-- Representation invariant: `storage_` is a state of a `std::map`. -/
def WF (m : TypedMap EnumType) : Prop :=
  StdMap.WF m.storage_

instance decidableWF (m : TypedMap EnumType) : Decidable (WF m) :=
  inferInstanceAs (Decidable (StdMap.WF m.storage_))

/-- The pattern `storage_[enum_value].method(...)`: `operator[]` yields the stored
cell, or a default constructed one it creates, and the method runs on it in place. -/
def subscript (enum_value : EnumType) (method : StorageType → StorageType)
    (m : TypedMap EnumType) : TypedMap EnumType :=
  { storage_ := StdMap.insertOrAssign enum_value
      (method ((StdMap.find enum_value m.storage_).getD {})) m.storage_ }

/-- Member `Unset(type)`. -/
def Unset (type : EnumType) (m : TypedMap EnumType) : TypedMap EnumType :=
  { storage_ := StdMap.erase type m.storage_ }

/-- Member `Merge(from)`: `storage_[status.first] = status.second` for every entry
of `from`, in iteration order. -/
def Merge (m «from» : TypedMap EnumType) : TypedMap EnumType :=
  { storage_ := List.foldl (fun acc status => StdMap.insertOrAssign status.1 status.2 acc)
      m.storage_ «from».storage_ }

/-- Member `KeySet()`. -/
def KeySet (m : TypedMap EnumType) : StdSet EnumType :=
  StdSet.ofRange (StdMap.keys m.storage_)

/-- What `Get<enum_value>()` and `GetRawAs<T>` return: `std::optional<T>` for a
scalar `T`, `T` itself for a container. -/
@[reducible]
def GetReturn : Ty → Type
  | .int => Option Int
  | .char => Option Char
  | .bool => Option Bool
  | .vector => List Int
  | .map => StdMap Int Int
  | .set => StdSet Int

/-- Overload `GetRawAs<T>` for `internal::IsNotContainer T`. -/
def GetRawAs.notContainer (T : Ty) (enum_value : EnumType) (m : TypedMap EnumType) :
    Option T.type :=
  match StdMap.find enum_value m.storage_ with
  | none => none
  | some storage =>
    if !Variant.holds_alternative T storage.internal_storage_ then none
    else Variant.get T storage.internal_storage_

/-- Overload `GetRawAs<T>` for `internal::IsContainer T`. -/
def GetRawAs.container (T : Ty) (enum_value : EnumType) (m : TypedMap EnumType) : T.type :=
  match StdMap.find enum_value m.storage_ with
  | none => T.default
  | some storage =>
    if !Variant.holds_alternative T storage.internal_storage_ then T.default
    else
      match Variant.get T storage.internal_storage_ with
      | some stored => stored
      | none => T.default

/-- Member `GetRawAs<T>(enum_value)`: the overload the concepts select for `T`. -/
def GetRawAs : (T : Ty) → EnumType → TypedMap EnumType → GetReturn T
  | .int, enum_value, m => GetRawAs.notContainer .int enum_value m
  | .char, enum_value, m => GetRawAs.notContainer .char enum_value m
  | .bool, enum_value, m => GetRawAs.notContainer .bool enum_value m
  | .vector, enum_value, m => GetRawAs.container .vector enum_value m
  | .map, enum_value, m => GetRawAs.container .map enum_value m
  | .set, enum_value, m => GetRawAs.container .set enum_value m

/-- Member `SetRaw(enum_value, value)`. -/
def SetRaw (enum_value : EnumType) (value : Variant) (m : TypedMap EnumType) :
    TypedMap EnumType :=
  subscript enum_value (fun _ => { internal_storage_ := value }) m

/-- Branch of `Get<enum_value>()` taken when `v->empty()` is well formed. -/
def Get.container (desired_type : Ty) (enum_value : EnumType) (m : TypedMap EnumType) :
    desired_type.type :=
  let result : Option desired_type.type :=
    match StdMap.find enum_value m.storage_ with
    | some val => val.Get desired_type
    | none => none
  match result with
  | some stored => stored
  | none => desired_type.default

/-- Branch of `Get<enum_value>()` taken otherwise. -/
def Get.scalar (desired_type : Ty) (enum_value : EnumType) (m : TypedMap EnumType) :
    Option desired_type.type :=
  match StdMap.find enum_value m.storage_ with
  | some result => result.Get desired_type
  | none => none

/-- Member `Get<enum_value>()`: the branch `if constexpr` selects for `desired_type`. -/
def Get : (desired_type : Ty) → EnumType → TypedMap EnumType → GetReturn desired_type
  | .int, enum_value, m => Get.scalar .int enum_value m
  | .char, enum_value, m => Get.scalar .char enum_value m
  | .bool, enum_value, m => Get.scalar .bool enum_value m
  | .vector, enum_value, m => Get.container .vector enum_value m
  | .map, enum_value, m => Get.container .map enum_value m
  | .set, enum_value, m => Get.container .set enum_value m

/-- Member `Get<enum_value>(key)` for the mapping type. -/
def GetAt (enum_value : EnumType) (key : Int) (m : TypedMap EnumType) : Option Int :=
  match StdMap.find enum_value m.storage_ with
  | some result => result.GetAt key
  | none => none

/-- Member `Mutable<enum_value>()` followed by the caller's write `edit` through the
returned reference. -/
def Mutable (desired_type : Ty) (enum_value : EnumType)
    (edit : desired_type.type → desired_type.type) (m : TypedMap EnumType) :
    TypedMap EnumType :=
  subscript enum_value (StorageType.Mutable desired_type edit) m

/-- Member `Set<enum_value>(value)`. -/
def Set (enum_value : EnumType) (value : Variant) (m : TypedMap EnumType) :
    TypedMap EnumType :=
  subscript enum_value (StorageType.Set value) m

/-- Member `Set<enum_value>(key, value)` for the mapping type. -/
def SetAt (enum_value : EnumType) (key : Int) (value : Int) (m : TypedMap EnumType) :
    TypedMap EnumType :=
  subscript enum_value (StorageType.SetAt key value) m

/-- Member `MaybeSet<enum_value>(param)`. -/
def MaybeSet (enum_value : EnumType) (param : Option Variant) (m : TypedMap EnumType) :
    TypedMap EnumType :=
  match param with
  | some value => Set enum_value value m
  | none => m

/-- Member `Add<enum_value>(value)`. -/
def Add (desired_type : Ty) (enum_value : EnumType) (value : desired_type.value_type)
    (m : TypedMap EnumType) : TypedMap EnumType :=
  subscript enum_value (StorageType.Add desired_type value) m

/-- The maps a program builds from a newly created one with the public mutating
members.  `TypeOf` is `Constraints::TypeOf`, with `none` for `void`: a member whose
body names `desired_type` is instantiated at the declared type of its key, and the
keyed `Set` only for a key declared as the mapping.  `Set<enum_value>(value)` and
`SetRaw(enum_value, value)` accept a value of any alternative of the variant;
`typedValue` and `rawValue` say which values the program passes to them. -/
inductive Reachable (TypeOf : EnumType → Option Ty)
    (typedValue rawValue : EnumType → Variant → Prop) : TypedMap EnumType → Prop where
  | created : Reachable TypeOf typedValue rawValue {}
  | afterSet (enum_value : EnumType) (value : Variant) {m : TypedMap EnumType} :
      typedValue enum_value value → Reachable TypeOf typedValue rawValue m →
      Reachable TypeOf typedValue rawValue (TypedMap.Set enum_value value m)
  | afterSetAt (enum_value : EnumType) (key value : Int) {m : TypedMap EnumType} :
      TypeOf enum_value = some Ty.map → Reachable TypeOf typedValue rawValue m →
      Reachable TypeOf typedValue rawValue (TypedMap.SetAt enum_value key value m)
  | afterMaybeSet (enum_value : EnumType) (param : Option Variant) {m : TypedMap EnumType} :
      (∀ value, param = some value → typedValue enum_value value) →
      Reachable TypeOf typedValue rawValue m →
      Reachable TypeOf typedValue rawValue (TypedMap.MaybeSet enum_value param m)
  | afterMutable (enum_value : EnumType) (desired_type : Ty)
      (edit : desired_type.type → desired_type.type) {m : TypedMap EnumType} :
      TypeOf enum_value = some desired_type → Reachable TypeOf typedValue rawValue m →
      Reachable TypeOf typedValue rawValue (TypedMap.Mutable desired_type enum_value edit m)
  | afterAdd (enum_value : EnumType) (desired_type : Ty) (value : desired_type.value_type)
      {m : TypedMap EnumType} :
      TypeOf enum_value = some desired_type → Reachable TypeOf typedValue rawValue m →
      Reachable TypeOf typedValue rawValue (TypedMap.Add desired_type enum_value value m)
  | afterUnset (type : EnumType) {m : TypedMap EnumType} :
      Reachable TypeOf typedValue rawValue m →
      Reachable TypeOf typedValue rawValue (TypedMap.Unset type m)
  | afterMerge {m other : TypedMap EnumType} :
      Reachable TypeOf typedValue rawValue m → Reachable TypeOf typedValue rawValue other →
      Reachable TypeOf typedValue rawValue (TypedMap.Merge m other)
  | afterSetRaw (enum_value : EnumType) (value : Variant) {m : TypedMap EnumType} :
      rawValue enum_value value → Reachable TypeOf typedValue rawValue m →
      Reachable TypeOf typedValue rawValue (TypedMap.SetRaw enum_value value m)

end TypedMap

/-! ## The fixture of `typed_map_test.cpp` -/

namespace Test

/-- Enumerator `TEST_ENUM_VALUE_1` of `TestEnum`, declared `char`. -/
def TEST_ENUM_VALUE_1 : Nat := 0

/-- Enumerator `TEST_ENUM_VALUE_2` of `TestEnum`, declared `int`. -/
def TEST_ENUM_VALUE_2 : Nat := 1

/-- Enumerator `TEST_ENUM_VALUE_3` of `TestEnum`, declared `bool`. -/
def TEST_ENUM_VALUE_3 : Nat := 2

/-- Enumerator `TEST_ENUM_VALUE_4` of `TestEnum`, declared `std::vector<int>`. -/
def TEST_ENUM_VALUE_4 : Nat := 3

/-- Enumerator `TEST_ENUM_VALUE_5` of `TestEnum`, declared `std::map<int, int>`. -/
def TEST_ENUM_VALUE_5 : Nat := 4

/-- Enumerator `TEST_ENUM_VALUE_6` of `TestEnum`, declared `std::set<int>`. -/
def TEST_ENUM_VALUE_6 : Nat := 5

/-- The specialisations of `Constraints::TypeOf` in the test; every other value of
the enumeration keeps the primary template, `void`. -/
def TypeOf : Nat → Option Ty
  | 0 => some .char
  | 1 => some .int
  | 2 => some .bool
  | 3 => some .vector
  | 4 => some .map
  | 5 => some .set
  | _ => none

/-- The map after the six `Set` calls that open `GetAndSetWorks`, `UnsetWorks` and
`KeySetWorks`. -/
def sixSet : TypedMap Nat :=
  TypedMap.Set TEST_ENUM_VALUE_6 (.set [1, 2, 3])
    (TypedMap.Set TEST_ENUM_VALUE_5 (.map [(1, 2)])
      (TypedMap.Set TEST_ENUM_VALUE_4 (.vector [1, 2])
        (TypedMap.Set TEST_ENUM_VALUE_3 (.bool false)
          (TypedMap.Set TEST_ENUM_VALUE_2 (.int 2)
            (TypedMap.Set TEST_ENUM_VALUE_1 (.char 'a') {})))))

/-- The map after the three `Unset` calls of `UnsetWorks` and `KeySetWorks`. -/
def threeUnset : TypedMap Nat :=
  TypedMap.Unset TEST_ENUM_VALUE_5
    (TypedMap.Unset TEST_ENUM_VALUE_3 (TypedMap.Unset TEST_ENUM_VALUE_1 sixSet))

/-- The map `map_under_test_` of `MergeWorks` after the call of `Merge`. -/
def merged : TypedMap Nat :=
  TypedMap.Merge
    (TypedMap.Set TEST_ENUM_VALUE_4 (.vector [1, 2])
      (TypedMap.Set TEST_ENUM_VALUE_3 (.bool false)
        (TypedMap.Set TEST_ENUM_VALUE_2 (.int 2)
          (TypedMap.Set TEST_ENUM_VALUE_1 (.char 'a') {}))))
    (TypedMap.Set TEST_ENUM_VALUE_6 (.set [1, 2, 3])
      (TypedMap.Set TEST_ENUM_VALUE_5 (.map [(1, 2)])
        (TypedMap.Set TEST_ENUM_VALUE_4 (.vector [5, 6])
          (TypedMap.Set TEST_ENUM_VALUE_3 (.bool true) {}))))

/-- The map of `GetAndSetWorksForMap` after its four keyed `Set` calls. -/
def keyedSet : TypedMap Nat :=
  TypedMap.SetAt TEST_ENUM_VALUE_5 3 7
    (TypedMap.SetAt TEST_ENUM_VALUE_5 1 5
      (TypedMap.SetAt TEST_ENUM_VALUE_5 2 3
        (TypedMap.SetAt TEST_ENUM_VALUE_5 1 2 {})))

/-- The map of `MutableWorks` after its six writes through `Mutable`. -/
def sixMutable : TypedMap Nat :=
  TypedMap.Mutable .set TEST_ENUM_VALUE_6 (fun stored => StdSet.insert 2 stored)
    (TypedMap.Mutable .map TEST_ENUM_VALUE_5 (fun stored => StdMap.insert 1 2 stored)
      (TypedMap.Mutable .vector TEST_ENUM_VALUE_4 (fun stored => stored ++ [1])
        (TypedMap.Mutable .bool TEST_ENUM_VALUE_3 (fun _ => false)
          (TypedMap.Mutable .int TEST_ENUM_VALUE_2 (fun _ => 2)
            (TypedMap.Mutable .char TEST_ENUM_VALUE_1 (fun _ => 'a') {})))))

/-- The map of `GetRawAsWorks` after its six `SetRaw` calls. -/
def sixSetRaw : TypedMap Nat :=
  TypedMap.SetRaw TEST_ENUM_VALUE_6 (.set [1, 2, 3])
    (TypedMap.SetRaw TEST_ENUM_VALUE_5 (.map [(1, 2)])
      (TypedMap.SetRaw TEST_ENUM_VALUE_4 (.vector [1, 2])
        (TypedMap.SetRaw TEST_ENUM_VALUE_3 (.bool false)
          (TypedMap.SetRaw TEST_ENUM_VALUE_2 (.int 2)
            (TypedMap.SetRaw TEST_ENUM_VALUE_1 (.char 'a') {})))))

/-- The map of `AddWorks` after its six `Add` calls. -/
def sixAdd : TypedMap Nat :=
  TypedMap.Add .set TEST_ENUM_VALUE_6 3
    (TypedMap.Add .set TEST_ENUM_VALUE_6 1
      (TypedMap.Add .set TEST_ENUM_VALUE_6 2
        (TypedMap.Add .vector TEST_ENUM_VALUE_4 3
          (TypedMap.Add .vector TEST_ENUM_VALUE_4 1
            (TypedMap.Add .vector TEST_ENUM_VALUE_4 2 {})))))

end Test

/-! ## The model of `std::map` -/

namespace StdMap

variable {κ ν : Type} [LinearOrder κ]

theorem eq_of_not_lt {a k : κ} (h1 : ¬ k < a) (h2 : ¬ a < k) : a = k :=
  le_antisymm (not_lt.mp h1) (not_lt.mp h2)

theorem wf_nil : WF ([] : StdMap κ ν) := by
  simp [WF]

theorem wf_cons {a : κ} {b : ν} {l : StdMap κ ν} :
    WF ((a, b) :: l) ↔ (∀ x ∈ l.map Prod.fst, a < x) ∧ WF l := by
  simp [WF, List.pairwise_cons]

theorem find_eq_none_of_forall_lt {k : κ} {l : StdMap κ ν}
    (h : ∀ x ∈ l.map Prod.fst, k < x) : find k l = none := by
  cases l with
  | nil => rfl
  | cons hd tl =>
    obtain ⟨a, b⟩ := hd
    have : k < a := h a (by simp)
    simp [find, this]

theorem find_insertOrAssign_self (k : κ) (v : ν) (l : StdMap κ ν) :
    find k (insertOrAssign k v l) = some v := by
  induction l with
  | nil => simp [insertOrAssign, find]
  | cons hd tl ih =>
    obtain ⟨a, b⟩ := hd
    rcases lt_trichotomy k a with h | h | h
    · simp [insertOrAssign, find, h]
    · subst h; simp [insertOrAssign, find]
    · simp [insertOrAssign, find, h, lt_asymm h, ih]

theorem find_insertOrAssign_of_ne {k k2 : κ} (hne : k2 ≠ k) (v : ν) (l : StdMap κ ν) :
    find k2 (insertOrAssign k v l) = find k2 l := by
  induction l with
  | nil =>
    rcases lt_trichotomy k2 k with h | h | h
    · simp [insertOrAssign, find, h]
    · exact absurd h hne
    · simp [insertOrAssign, find, h, lt_asymm h]
  | cons hd tl ih =>
    obtain ⟨a, b⟩ := hd
    rcases lt_trichotomy k a with h | h | h
    · rcases lt_trichotomy k2 k with h2 | h2 | h2
      · simp [insertOrAssign, find, h, h2, lt_trans h2 h]
      · exact absurd h2 hne
      · simp [insertOrAssign, find, h, h2, lt_asymm h2]
    · subst h
      rcases lt_trichotomy k2 k with h2 | h2 | h2
      · simp [insertOrAssign, find, h2]
      · exact absurd h2 hne
      · simp [insertOrAssign, find, h2, lt_asymm h2]
    · simp [insertOrAssign, find, h, lt_asymm h, ih]

theorem mem_keys_insertOrAssign {k x : κ} {v : ν} {l : StdMap κ ν} :
    x ∈ (insertOrAssign k v l).map Prod.fst ↔ x = k ∨ x ∈ l.map Prod.fst := by
  induction l with
  | nil => simp [insertOrAssign]
  | cons hd tl ih =>
    obtain ⟨a, b⟩ := hd
    rcases lt_trichotomy k a with h | h | h
    · simp [insertOrAssign, h]
    · subst h; simp [insertOrAssign]
    · simp only [insertOrAssign, h, lt_asymm h, if_true, if_false, List.map_cons,
        List.mem_cons, ih]
      tauto

theorem wf_insertOrAssign (k : κ) (v : ν) {l : StdMap κ ν} (hl : WF l) :
    WF (insertOrAssign k v l) := by
  induction l with
  | nil => simp [insertOrAssign, WF]
  | cons hd tl ih =>
    obtain ⟨a, b⟩ := hd
    rw [wf_cons] at hl
    rcases lt_trichotomy k a with h | h | h
    · simp only [insertOrAssign, h, if_true]
      rw [wf_cons]
      refine ⟨?_, wf_cons.mpr hl⟩
      intro x hx
      simp only [List.map_cons, List.mem_cons] at hx
      rcases hx with hx | hx
      · exact hx ▸ h
      · exact lt_trans h (hl.1 x hx)
    · subst h
      simp only [insertOrAssign, lt_irrefl, if_false]
      exact wf_cons.mpr hl
    · simp only [insertOrAssign, h, lt_asymm h, if_true, if_false]
      rw [wf_cons]
      refine ⟨?_, ih hl.2⟩
      intro x hx
      rcases mem_keys_insertOrAssign.mp hx with hx | hx
      · exact hx ▸ h
      · exact hl.1 x hx

theorem erase_sublist (k : κ) (l : StdMap κ ν) : List.Sublist (erase k l) l := by
  induction l with
  | nil => simp [erase]
  | cons hd tl ih =>
    obtain ⟨a, b⟩ := hd
    simp only [erase]
    split_ifs
    · exact List.Sublist.refl _
    · exact List.Sublist.cons₂ _ ih
    · exact List.sublist_cons_self _ _

theorem wf_erase (k : κ) {l : StdMap κ ν} (hl : WF l) : WF (erase k l) :=
  List.Pairwise.sublist ((erase_sublist k l).map Prod.fst) hl

theorem mem_keys_erase {k x : κ} {l : StdMap κ ν}
    (hx : x ∈ (erase k l).map Prod.fst) : x ∈ l.map Prod.fst :=
  ((erase_sublist k l).map Prod.fst).subset hx

theorem find_erase_self (k : κ) {l : StdMap κ ν} (hl : WF l) : find k (erase k l) = none := by
  induction l with
  | nil => simp [erase, find]
  | cons hd tl ih =>
    obtain ⟨a, b⟩ := hd
    rw [wf_cons] at hl
    rcases lt_trichotomy k a with h | h | h
    · simp [erase, find, h]
    · subst h
      simp only [erase, lt_irrefl, if_false]
      exact find_eq_none_of_forall_lt hl.1
    · simp [erase, find, h, lt_asymm h, ih hl.2]

theorem find_erase_of_ne {k k2 : κ} (hne : k2 ≠ k) {l : StdMap κ ν} (hl : WF l) :
    find k2 (erase k l) = find k2 l := by
  induction l with
  | nil => simp [erase]
  | cons hd tl ih =>
    obtain ⟨a, b⟩ := hd
    rw [wf_cons] at hl
    rcases lt_trichotomy k a with h | h | h
    · simp [erase, h]
    · subst h
      simp only [erase, lt_irrefl, if_false]
      rcases lt_trichotomy k2 k with h2 | h2 | h2
      · simp only [find, h2, if_true]
        exact find_eq_none_of_forall_lt (fun x hx => lt_trans h2 (hl.1 x hx))
      · exact absurd h2 hne
      · simp [find, h2, lt_asymm h2]
    · simp only [erase, h, lt_asymm h, if_true, if_false, find, ih hl.2]

theorem erase_of_find_eq_none {k : κ} {l : StdMap κ ν} (h : find k l = none) :
    erase k l = l := by
  induction l with
  | nil => rfl
  | cons hd tl ih =>
    obtain ⟨a, b⟩ := hd
    rcases lt_trichotomy k a with h1 | h1 | h1
    · simp [erase, h1]
    · subst h1; simp [find] at h
    · simp only [find, h1, lt_asymm h1, if_true, if_false] at h
      simp [erase, h1, lt_asymm h1, ih h]

theorem mem_keys_iff_find {k : κ} {l : StdMap κ ν} (hl : WF l) :
    k ∈ keys l ↔ (find k l).isSome = true := by
  induction l with
  | nil => simp [keys, find]
  | cons hd tl ih =>
    obtain ⟨a, b⟩ := hd
    rw [wf_cons] at hl
    have ih2 := ih hl.2
    simp only [keys] at ih2
    rcases lt_trichotomy k a with h | h | h
    · simp only [keys, List.map_cons, List.mem_cons, find, h, if_true, Option.isSome_none]
      constructor
      · rintro (h2 | h2)
        · exact absurd h2 (ne_of_lt h)
        · exact absurd (hl.1 k h2) (lt_asymm h)
      · intro h2; cases h2
    · subst h; simp [keys, find]
    · simp only [keys, List.map_cons, List.mem_cons, find, h, lt_asymm h, if_true, if_false]
      rw [← ih2]
      constructor
      · rintro (h2 | h2)
        · exact absurd h2 (ne_of_gt h)
        · exact h2
      · intro h2; exact Or.inr h2

theorem find_foldl_insertOrAssign (k : κ) {l : StdMap κ ν} (hl : WF l) (acc : StdMap κ ν) :
    find k (List.foldl (fun acc status => insertOrAssign status.1 status.2 acc) acc l)
      = (find k l).orElse (fun _ => find k acc) := by
  induction l generalizing acc with
  | nil => simp [find]
  | cons hd tl ih =>
    obtain ⟨a, b⟩ := hd
    rw [wf_cons] at hl
    simp only [List.foldl_cons]
    rw [ih hl.2]
    rcases lt_trichotomy k a with h | h | h
    · have h1 : find k tl = none :=
        find_eq_none_of_forall_lt (fun x hx => lt_trans h (hl.1 x hx))
      simp [find, h, h1, find_insertOrAssign_of_ne (ne_of_lt h)]
    · subst h
      have h1 : find k tl = none := find_eq_none_of_forall_lt hl.1
      simp [find, h1, find_insertOrAssign_self]
    · simp [find, h, lt_asymm h, find_insertOrAssign_of_ne (ne_of_gt h)]

theorem wf_foldl_insertOrAssign (l : StdMap κ ν) {acc : StdMap κ ν} (hacc : WF acc) :
    WF (List.foldl (fun acc status => insertOrAssign status.1 status.2 acc) acc l) := by
  induction l generalizing acc with
  | nil => exact hacc
  | cons hd tl ih => exact ih (wf_insertOrAssign hd.1 hd.2 hacc)

end StdMap

/-! ## The model of `std::set` -/

namespace StdSet

variable {α : Type} [LinearOrder α]

theorem mem_insert {x v : α} {s : StdSet α} : x ∈ insert v s ↔ x = v ∨ x ∈ s := by
  induction s with
  | nil => simp [insert]
  | cons y ys ih =>
    rcases lt_trichotomy v y with h | h | h
    · simp [insert, h]
    · subst h; simp [insert]
    · simp only [insert, h, lt_asymm h, if_true, if_false, List.mem_cons, ih]
      tauto

theorem wf_insert (v : α) {s : StdSet α} (hs : WF s) : WF (insert v s) := by
  induction s with
  | nil => simp [insert, WF]
  | cons y ys ih =>
    unfold WF at hs ih ⊢
    rw [List.pairwise_cons] at hs
    rcases lt_trichotomy v y with h | h | h
    · simp only [insert, h, if_true]
      refine List.pairwise_cons.mpr ⟨?_, List.pairwise_cons.mpr hs⟩
      intro x hx
      rcases List.mem_cons.mp hx with hx | hx
      · exact hx ▸ h
      · exact lt_trans h (hs.1 x hx)
    · subst h
      simp only [insert, lt_irrefl, if_false]
      exact List.pairwise_cons.mpr hs
    · simp only [insert, h, lt_asymm h, if_true, if_false]
      refine List.pairwise_cons.mpr ⟨?_, ih hs.2⟩
      intro x hx
      rcases mem_insert.mp hx with hx | hx
      · exact hx ▸ h
      · exact hs.1 x hx

theorem insert_of_mem {v : α} {s : StdSet α} (hs : WF s) (hv : v ∈ s) : insert v s = s := by
  induction s with
  | nil => cases hv
  | cons y ys ih =>
    unfold WF at hs ih
    rw [List.pairwise_cons] at hs
    rcases lt_trichotomy v y with h | h | h
    · rcases List.mem_cons.mp hv with hv | hv
      · exact absurd hv (ne_of_lt h)
      · exact absurd (hs.1 v hv) (lt_asymm h)
    · subst h; simp [insert]
    · rcases List.mem_cons.mp hv with hv | hv
      · exact absurd hv (ne_of_gt h)
      · simp [insert, h, lt_asymm h, ih hs.2 hv]

theorem wf_foldl_insert (range : List α) {acc : StdSet α} (hacc : WF acc) :
    WF (List.foldl (fun s x => insert x s) acc range) := by
  induction range generalizing acc with
  | nil => exact hacc
  | cons hd tl ih => exact ih (wf_insert hd hacc)

theorem mem_foldl_insert {x : α} (range : List α) (acc : StdSet α) :
    x ∈ List.foldl (fun s x => insert x s) acc range ↔ x ∈ acc ∨ x ∈ range := by
  induction range generalizing acc with
  | nil => simp
  | cons hd tl ih =>
    simp only [List.foldl_cons, ih, mem_insert, List.mem_cons]
    tauto

theorem wf_ofRange (range : List α) : WF (ofRange range) :=
  wf_foldl_insert range List.Pairwise.nil

theorem mem_ofRange {x : α} (range : List α) : x ∈ ofRange range ↔ x ∈ range := by
  simp [ofRange, mem_foldl_insert]

theorem eq_of_wf_of_mem_iff {s t : StdSet α} (hs : WF s) (ht : WF t)
    (h : ∀ x, x ∈ s ↔ x ∈ t) : s = t := by
  have hns : s.Nodup := List.Pairwise.imp (fun hab => ne_of_lt hab) hs
  have hnt : t.Nodup := List.Pairwise.imp (fun hab => ne_of_lt hab) ht
  have hp : List.Perm s t := (List.perm_ext_iff_of_nodup hns hnt).mpr h
  exact List.eq_of_perm_of_sorted hp hs ht

end StdSet

/-! ## The assertions of `typed_map_test.cpp` on the embedding -/

namespace Test

open TypedMap

theorem GetWorksOnEmptyValue :
    Get .char TEST_ENUM_VALUE_1 {} = none ∧
    Get .int TEST_ENUM_VALUE_2 {} = none ∧
    Get .bool TEST_ENUM_VALUE_3 {} = none ∧
    Get .vector TEST_ENUM_VALUE_4 {} = [] ∧
    Get .map TEST_ENUM_VALUE_5 {} = [] ∧
    Get .set TEST_ENUM_VALUE_6 {} = [] := by
  decide

theorem GetAndSetWorks :
    Get .char TEST_ENUM_VALUE_1 sixSet = some 'a' ∧
    Get .int TEST_ENUM_VALUE_2 sixSet = some 2 ∧
    Get .bool TEST_ENUM_VALUE_3 sixSet = some false ∧
    Get .vector TEST_ENUM_VALUE_4 sixSet = [1, 2] ∧
    Get .map TEST_ENUM_VALUE_5 sixSet = [(1, 2)] ∧
    Get .set TEST_ENUM_VALUE_6 sixSet = [1, 2, 3] := by
  decide

theorem UnsetWorks :
    Get .char TEST_ENUM_VALUE_1 threeUnset = none ∧
    Get .int TEST_ENUM_VALUE_2 threeUnset = some 2 ∧
    Get .bool TEST_ENUM_VALUE_3 threeUnset = none ∧
    Get .vector TEST_ENUM_VALUE_4 threeUnset = [1, 2] ∧
    Get .map TEST_ENUM_VALUE_5 threeUnset = [] ∧
    Get .set TEST_ENUM_VALUE_6 threeUnset = [1, 2, 3] := by
  decide

theorem KeySetWorks :
    KeySet sixSet = [TEST_ENUM_VALUE_1, TEST_ENUM_VALUE_2, TEST_ENUM_VALUE_3,
      TEST_ENUM_VALUE_4, TEST_ENUM_VALUE_5, TEST_ENUM_VALUE_6] ∧
    KeySet threeUnset = [TEST_ENUM_VALUE_2, TEST_ENUM_VALUE_4, TEST_ENUM_VALUE_6] := by
  decide

theorem MergeWorks :
    Get .char TEST_ENUM_VALUE_1 merged = some 'a' ∧
    Get .int TEST_ENUM_VALUE_2 merged = some 2 ∧
    Get .bool TEST_ENUM_VALUE_3 merged = some true ∧
    Get .vector TEST_ENUM_VALUE_4 merged = [5, 6] ∧
    Get .map TEST_ENUM_VALUE_5 merged = [(1, 2)] ∧
    Get .set TEST_ENUM_VALUE_6 merged = [1, 2, 3] := by
  decide

theorem GetAndSetWorksForMap :
    Get .map TEST_ENUM_VALUE_5 keyedSet = [(1, 5), (2, 3), (3, 7)] ∧
    GetAt TEST_ENUM_VALUE_5 1 keyedSet = some 5 ∧
    GetAt TEST_ENUM_VALUE_5 2 keyedSet = some 3 ∧
    GetAt TEST_ENUM_VALUE_5 3 keyedSet = some 7 ∧
    GetAt TEST_ENUM_VALUE_5 3 (SetAt TEST_ENUM_VALUE_5 2 3 (SetAt TEST_ENUM_VALUE_5 1 2 {}))
      = none := by
  decide

theorem MutableWorks :
    Get .char TEST_ENUM_VALUE_1 sixMutable = some 'a' ∧
    Get .int TEST_ENUM_VALUE_2 sixMutable = some 2 ∧
    Get .bool TEST_ENUM_VALUE_3 sixMutable = some false ∧
    Get .vector TEST_ENUM_VALUE_4 sixMutable = [1] ∧
    Get .map TEST_ENUM_VALUE_5 sixMutable = [(1, 2)] ∧
    Get .set TEST_ENUM_VALUE_6 sixMutable = [2] := by
  decide

theorem GetRawAsWorks :
    Get .char TEST_ENUM_VALUE_1 sixSetRaw = some 'a' ∧
    Get .int TEST_ENUM_VALUE_2 sixSetRaw = some 2 ∧
    Get .bool TEST_ENUM_VALUE_3 sixSetRaw = some false ∧
    Get .vector TEST_ENUM_VALUE_4 sixSetRaw = [1, 2] ∧
    Get .map TEST_ENUM_VALUE_5 sixSetRaw = [(1, 2)] ∧
    Get .set TEST_ENUM_VALUE_6 sixSetRaw = [1, 2, 3] := by
  decide

theorem SetRawAsWorks :
    GetRawAs .char TEST_ENUM_VALUE_1 sixSet = some 'a' ∧
    GetRawAs .int TEST_ENUM_VALUE_2 sixSet = some 2 ∧
    GetRawAs .bool TEST_ENUM_VALUE_3 sixSet = some false ∧
    GetRawAs .vector TEST_ENUM_VALUE_4 sixSet = [1, 2] ∧
    GetRawAs .map TEST_ENUM_VALUE_5 sixSet = [(1, 2)] ∧
    GetRawAs .set TEST_ENUM_VALUE_6 sixSet = [1, 2, 3] := by
  decide

theorem MaybeSetWorks :
    GetRawAs .char TEST_ENUM_VALUE_1
      (MaybeSet TEST_ENUM_VALUE_1 none (Set TEST_ENUM_VALUE_1 (.char 'a') {})) = some 'a' ∧
    GetRawAs .char TEST_ENUM_VALUE_1
      (MaybeSet TEST_ENUM_VALUE_1 (some (.char 'b'))
        (MaybeSet TEST_ENUM_VALUE_1 none (Set TEST_ENUM_VALUE_1 (.char 'a') {}))) = some 'b' := by
  decide

theorem AddWorks :
    Get .vector TEST_ENUM_VALUE_4 sixAdd = [2, 1, 3] ∧
    Get .set TEST_ENUM_VALUE_6 sixAdd = [1, 2, 3] := by
  decide

end Test

/-! ## `TypedMap`: the cell an operation leaves behind -/

namespace TypedMap

variable {EnumType : Type} [LinearOrder EnumType]

theorem find_subscript_self (enum_value : EnumType) (method : StorageType → StorageType)
    (m : TypedMap EnumType) :
    StdMap.find enum_value (subscript enum_value method m).storage_
      = some (method ((StdMap.find enum_value m.storage_).getD {})) :=
  StdMap.find_insertOrAssign_self _ _ _

theorem find_subscript_of_ne {enum_value k2 : EnumType} (hne : k2 ≠ enum_value)
    (method : StorageType → StorageType) (m : TypedMap EnumType) :
    StdMap.find k2 (subscript enum_value method m).storage_ = StdMap.find k2 m.storage_ :=
  StdMap.find_insertOrAssign_of_ne hne _ _

theorem wf_subscript (enum_value : EnumType) (method : StorageType → StorageType)
    {m : TypedMap EnumType} (hm : WF m) : WF (subscript enum_value method m) :=
  StdMap.wf_insertOrAssign _ _ hm

theorem wf_empty : WF ({} : TypedMap EnumType) :=
  StdMap.wf_nil

theorem wf_Unset (type : EnumType) {m : TypedMap EnumType} (hm : WF m) : WF (Unset type m) :=
  StdMap.wf_erase _ hm

theorem wf_Merge {m other : TypedMap EnumType} (hm : WF m) : WF (Merge m other) :=
  StdMap.wf_foldl_insertOrAssign _ hm

/-! ## Reading and writing one key -/

/-- C1: for every map and key, `Set<key>(v)` followed by `Get<key>()` yields `v`
itself: present `v` for the scalar types `int`, `char`, `bool`, and the container `v`
for the vector, the mapping and the set, whatever the cell held before. -/
theorem Get_Set_round_trip (m : TypedMap EnumType) (key : EnumType) :
    (∀ v : Int, Get .int key (Set key (.int v) m) = some v) ∧
    (∀ v : Char, Get .char key (Set key (.char v) m) = some v) ∧
    (∀ v : Bool, Get .bool key (Set key (.bool v) m) = some v) ∧
    (∀ v : List Int, Get .vector key (Set key (.vector v) m) = v) ∧
    (∀ v : StdMap Int Int, Get .map key (Set key (.map v) m) = v) ∧
    (∀ v : StdSet Int, Get .set key (Set key (.set v) m) = v) := by
  refine ⟨?_, ?_, ?_, ?_, ?_, ?_⟩ <;> intro v <;>
    simp [Get, Get.scalar, Get.container, Set, find_subscript_self, StorageType.Set,
      StorageType.Get, Variant.holds_alternative, Variant.get]

/-- C2: on a newly created map, `Get<key>()` is `nullopt` for every key of a scalar
type and the empty container for every key of a container type. -/
theorem Get_empty (key : EnumType) :
    Get .int key ({} : TypedMap EnumType) = none ∧
    Get .char key ({} : TypedMap EnumType) = none ∧
    Get .bool key ({} : TypedMap EnumType) = none ∧
    Get .vector key ({} : TypedMap EnumType) = [] ∧
    Get .map key ({} : TypedMap EnumType) = [] ∧
    Get .set key ({} : TypedMap EnumType) = [] := by
  simp [Get, Get.scalar, Get.container, StdMap.find, Ty.default]

/-- C3: `Merge` is a right-biased union.  After `A.Merge(B)` the entry of a key is
the entry `B` has for it when `B` has one (the cell of `B` as it is, nothing of the
cell of `A` remains), the entry `A` had when only `A` has one, and there is none
when neither has one. -/
theorem Merge_right_biased (A B : TypedMap EnumType) (hB : WF B) (k : EnumType) :
    (∀ cell, StdMap.find k B.storage_ = some cell →
      StdMap.find k (Merge A B).storage_ = some cell) ∧
    (∀ cell, StdMap.find k B.storage_ = none → StdMap.find k A.storage_ = some cell →
      StdMap.find k (Merge A B).storage_ = some cell) ∧
    (StdMap.find k B.storage_ = none → StdMap.find k A.storage_ = none →
      StdMap.find k (Merge A B).storage_ = none) := by
  have h := StdMap.find_foldl_insertOrAssign k hB A.storage_
  refine ⟨?_, ?_, ?_⟩
  · intro cell hc
    simp [Merge, h, hc]
  · intro cell hb ha
    simp [Merge, h, hb, ha]
  · intro hb ha
    simp [Merge, h, hb, ha]

theorem Merge_right_biased_witness :
    WF (⟨[(1, ⟨.int 2⟩), (2, ⟨.vector [5]⟩)]⟩ : TypedMap Nat) ∧
    StdMap.find 1 (Merge ⟨[(0, ⟨.char 'x'⟩), (1, ⟨.int 1⟩)]⟩
      (⟨[(1, ⟨.int 2⟩), (2, ⟨.vector [5]⟩)]⟩ : TypedMap Nat)).storage_ = some ⟨.int 2⟩ :=
  ⟨by decide,
    (Merge_right_biased ⟨[(0, ⟨.char 'x'⟩), (1, ⟨.int 1⟩)]⟩
      ⟨[(1, ⟨.int 2⟩), (2, ⟨.vector [5]⟩)]⟩ (by decide) 1).1 _ (by decide)⟩

/-- C4: after `Unset(key)` the key has no entry and is not in `KeySet()`, and
`Get<key>()` returns what it returns on any map without an entry for the key (so on
one where the key was never written): `nullopt` for a scalar type, the empty
container for a container type. -/
theorem Get_Unset (m : TypedMap EnumType) (hm : WF m) (key : EnumType) :
    StdMap.find key (Unset key m).storage_ = none ∧
    key ∉ KeySet (Unset key m) ∧
    (∀ (T : Ty) (fresh : TypedMap EnumType), StdMap.find key fresh.storage_ = none →
      Get T key (Unset key m) = Get T key fresh) ∧
    Get .int key (Unset key m) = none ∧
    Get .char key (Unset key m) = none ∧
    Get .bool key (Unset key m) = none ∧
    Get .vector key (Unset key m) = [] ∧
    Get .map key (Unset key m) = [] ∧
    Get .set key (Unset key m) = [] := by
  have h : StdMap.find key (Unset key m).storage_ = none := StdMap.find_erase_self key hm
  refine ⟨h, ?_, ?_, ?_⟩
  · intro hk
    have hk2 : key ∈ StdMap.keys (Unset key m).storage_ := (StdSet.mem_ofRange _).mp hk
    rw [StdMap.mem_keys_iff_find (wf_Unset key hm), h] at hk2
    simp at hk2
  · intro T fresh hf
    cases T <;> simp [Get, Get.scalar, Get.container, h, hf]
  · simp [Get, Get.scalar, Get.container, h, Ty.default]

theorem Get_Unset_witness :
    WF (⟨[(0, ⟨.char 'x'⟩), (3, ⟨.vector [1, 2]⟩)]⟩ : TypedMap Nat) ∧
    Get .vector 3 (Unset 3 (⟨[(0, ⟨.char 'x'⟩), (3, ⟨.vector [1, 2]⟩)]⟩ : TypedMap Nat)) = [] :=
  ⟨by decide,
    (Get_Unset ⟨[(0, ⟨.char 'x'⟩), (3, ⟨.vector [1, 2]⟩)]⟩ (by decide) 3).2.2.2.2.2.2.1⟩

/-- C5: `Unset(key)` changes the entry of `key` only.  Every other key has the same
entry (present or not, and the same cell) after the call as before, and when `key`
has no entry the call returns the map as it was.  `Unset` is a total function: no
call fails. -/
theorem Unset_frame (m : TypedMap EnumType) (hm : WF m) (key : EnumType) :
    (∀ k2, k2 ≠ key → StdMap.find k2 (Unset key m).storage_ = StdMap.find k2 m.storage_) ∧
    (StdMap.find key m.storage_ = none → Unset key m = m) := by
  refine ⟨fun k2 hne => StdMap.find_erase_of_ne hne hm, fun h => ?_⟩
  simp [Unset, StdMap.erase_of_find_eq_none h]

theorem Unset_frame_witness :
    WF (⟨[(0, ⟨.char 'x'⟩), (3, ⟨.vector [1, 2]⟩)]⟩ : TypedMap Nat) ∧
    StdMap.find 3 (Unset 0 (⟨[(0, ⟨.char 'x'⟩), (3, ⟨.vector [1, 2]⟩)]⟩ : TypedMap Nat)).storage_
      = some ⟨.vector [1, 2]⟩ ∧
    Unset 2 (⟨[(0, ⟨.char 'x'⟩), (3, ⟨.vector [1, 2]⟩)]⟩ : TypedMap Nat)
      = ⟨[(0, ⟨.char 'x'⟩), (3, ⟨.vector [1, 2]⟩)]⟩ :=
  ⟨by decide,
    ((Unset_frame ⟨[(0, ⟨.char 'x'⟩), (3, ⟨.vector [1, 2]⟩)]⟩ (by decide) 0).1 3
      (by decide)).trans (by decide),
    (Unset_frame ⟨[(0, ⟨.char 'x'⟩), (3, ⟨.vector [1, 2]⟩)]⟩ (by decide) 2).2 (by decide)⟩

/-- C6: `KeySet()` holds exactly the keys that have an entry, each once and in
strictly ascending key order; two maps with entries for the same keys have the same
`KeySet()`, whatever operations built them. -/
theorem KeySet_exact_sorted (m : TypedMap EnumType) (hm : WF m) :
    (∀ k, k ∈ KeySet m ↔ (StdMap.find k m.storage_).isSome = true) ∧
    List.Pairwise (fun a b => a < b) (KeySet m) ∧
    List.Nodup (KeySet m) ∧
    (∀ m2 : TypedMap EnumType, WF m2 →
      (∀ k, (StdMap.find k m2.storage_).isSome = (StdMap.find k m.storage_).isSome) →
      KeySet m2 = KeySet m) := by
  have hmem : ∀ (n : TypedMap EnumType), WF n →
      ∀ k, k ∈ KeySet n ↔ (StdMap.find k n.storage_).isSome = true := by
    intro n hn k
    rw [← StdMap.mem_keys_iff_find hn]
    exact StdSet.mem_ofRange _
  have hwf : ∀ (n : TypedMap EnumType), StdSet.WF (KeySet n) :=
    fun n => StdSet.wf_ofRange _
  refine ⟨hmem m hm, hwf m, List.Pairwise.imp (fun hab => ne_of_lt hab) (hwf m), ?_⟩
  intro m2 hm2 hsame
  apply StdSet.eq_of_wf_of_mem_iff (hwf m2) (hwf m)
  intro k
  rw [hmem m2 hm2, hmem m hm, hsame]

theorem KeySet_exact_sorted_witness :
    WF (Set 1 (.char 'a') (Set 3 (.bool true) (Set 2 (.int 5) ({} : TypedMap Nat)))) ∧
    KeySet (Set 1 (.char 'a') (Set 3 (.bool true) (Set 2 (.int 5) ({} : TypedMap Nat))))
      = [1, 2, 3] ∧
    List.Pairwise (fun a b => a < b)
      (KeySet (Set 1 (.char 'a') (Set 3 (.bool true) (Set 2 (.int 5) ({} : TypedMap Nat))))) :=
  ⟨by decide, by decide,
    (KeySet_exact_sorted
      (Set 1 (.char 'a') (Set 3 (.bool true) (Set 2 (.int 5) ({} : TypedMap Nat))))
      (by decide)).2.1⟩

/-! ## Containers behind a key -/

/-- C7: for a key of the vector type, `Get<key>()` after `Add<key>(v)` is `Get<key>()`
before the call with `v` appended at the end, so the order of insertion and
duplicates are kept; when the key is unset or its cell holds another type the
result is the one-element sequence `[v]`. -/
theorem Get_Add_vector (m : TypedMap EnumType) (key : EnumType) (v : Int) :
    Get .vector key (Add .vector key v m) = Get .vector key m ++ [v] ∧
    (StdMap.find key m.storage_ = none → Get .vector key (Add .vector key v m) = [v]) ∧
    (∀ cell, StdMap.find key m.storage_ = some cell →
      Variant.holds_alternative .vector cell.internal_storage_ = false →
      Get .vector key (Add .vector key v m) = [v]) := by
  have key_eq : Get .vector key (Add .vector key v m) = Get .vector key m ++ [v] := by
    simp only [Get, Get.container, Add, find_subscript_self]
    cases h : StdMap.find key m.storage_ with
    | none =>
      simp [StorageType.Add, StorageType.ensure, StorageType.Get, Variant.holds_alternative,
        Variant.get, Variant.ofType, Ty.default]
    | some cell =>
      obtain ⟨stored⟩ := cell
      cases stored <;>
        simp [StorageType.Add, StorageType.ensure, StorageType.Get,
          Variant.holds_alternative, Variant.get, Variant.ofType, Ty.default]
  refine ⟨key_eq, ?_, ?_⟩
  · intro h
    rw [key_eq]
    simp [Get, Get.container, h, Ty.default]
    rfl
  · intro cell h hc
    rw [key_eq]
    simp [Get, Get.container, h, StorageType.Get, hc, Ty.default]
    rfl

/-- C8: for a key of the set type, `Get<key>()` after `Add<key>(v)` is the set
insertion of `v` into `Get<key>()` before the call: its elements are `v` and the
former elements, it is strictly ascending (so without duplicates) when the stored
set was, it is the stored set itself when `v` was a member, and it is `{v}` when the
key is unset or its cell holds another type. -/
theorem Get_Add_set (m : TypedMap EnumType) (key : EnumType) (v : Int) :
    Get .set key (Add .set key v m) = StdSet.insert v (Get .set key m) ∧
    (∀ x, x ∈ Get .set key (Add .set key v m) ↔ x = v ∨ x ∈ Get .set key m) ∧
    (StdSet.WF (Get .set key m) →
      StdSet.WF (Get .set key (Add .set key v m)) ∧
      List.Nodup (Get .set key (Add .set key v m)) ∧
      (v ∈ Get .set key m → Get .set key (Add .set key v m) = Get .set key m)) ∧
    (StdMap.find key m.storage_ = none → Get .set key (Add .set key v m) = [v]) ∧
    (∀ cell, StdMap.find key m.storage_ = some cell →
      Variant.holds_alternative .set cell.internal_storage_ = false →
      Get .set key (Add .set key v m) = [v]) := by
  have key_eq : Get .set key (Add .set key v m) = StdSet.insert v (Get .set key m) := by
    simp only [Get, Get.container, Add, find_subscript_self]
    cases h : StdMap.find key m.storage_ with
    | none =>
      simp [StorageType.Add, StorageType.ensure, StorageType.Get, Variant.holds_alternative,
        Variant.get, Variant.ofType, Ty.default]
    | some cell =>
      obtain ⟨stored⟩ := cell
      cases stored <;>
        simp [StorageType.Add, StorageType.ensure, StorageType.Get,
          Variant.holds_alternative, Variant.get, Variant.ofType, Ty.default]
  refine ⟨key_eq, ?_, ?_, ?_, ?_⟩
  · intro x
    rw [key_eq]
    exact StdSet.mem_insert
  · intro hwf
    rw [key_eq]
    have hafter := StdSet.wf_insert v hwf
    exact ⟨hafter, List.Pairwise.imp (fun hab => ne_of_lt hab) hafter,
      fun hv => StdSet.insert_of_mem hwf hv⟩
  · intro h
    rw [key_eq]
    simp [Get, Get.container, h, Ty.default, StdSet.insert]
  · intro cell h hc
    rw [key_eq]
    simp [Get, Get.container, h, StorageType.Get, hc, Ty.default, StdSet.insert]

theorem Get_Add_set_witness :
    StdSet.WF (Get .set 6 (⟨[(6, ⟨.set [1, 2]⟩)]⟩ : TypedMap Nat)) ∧
    Get .set 6 (Add .set 6 2 (⟨[(6, ⟨.set [1, 2]⟩)]⟩ : TypedMap Nat)) = [1, 2] ∧
    Get .set 6 (Add .set 6 2 (Add .set 6 1 (Add .set 6 2 ({} : TypedMap Nat)))) = [1, 2] :=
  ⟨by decide,
    (((Get_Add_set ⟨[(6, ⟨.set [1, 2]⟩)]⟩ 6 2).2.2.1 (by decide)).2.2 (by decide)).trans
      (by decide),
    by decide⟩

/-- C9: for a key of the mapping type, after `Set<key>(subKey, v)` the call
`Get<key>(subKey)` is present `v`; when the cell held a mapping before, every other
`subKey2` reads as it did before the call; when the key was unset or its cell held
another type, the cell afterwards is the mapping with the single entry
`subKey -> v`. -/
theorem GetAt_SetAt (m : TypedMap EnumType) (key : EnumType) (subKey v : Int) :
    GetAt key subKey (SetAt key subKey v m) = some v ∧
    (∀ stored, StdMap.find key m.storage_ = some ⟨.map stored⟩ →
      ∀ subKey2, subKey2 ≠ subKey →
        GetAt key subKey2 (SetAt key subKey v m) = GetAt key subKey2 m) ∧
    (StdMap.find key m.storage_ = none →
      StdMap.find key (SetAt key subKey v m).storage_ = some ⟨.map [(subKey, v)]⟩) ∧
    (∀ cell, StdMap.find key m.storage_ = some cell →
      Variant.holds_alternative .map cell.internal_storage_ = false →
      StdMap.find key (SetAt key subKey v m).storage_ = some ⟨.map [(subKey, v)]⟩) := by
  refine ⟨?_, ?_, ?_, ?_⟩
  · simp only [GetAt, SetAt, find_subscript_self]
    cases h : StdMap.find key m.storage_ with
    | none =>
      simp [StorageType.SetAt, StorageType.GetAt, Variant.holds_alternative, Variant.get,
        StdMap.find]
    | some cell =>
      obtain ⟨stored⟩ := cell
      cases stored <;>
        simp [StorageType.SetAt, StorageType.GetAt, Variant.holds_alternative, Variant.get,
          StdMap.find, StdMap.find_insertOrAssign_self]
  · intro stored h subKey2 hne
    simp [GetAt, SetAt, find_subscript_self, h, StorageType.SetAt, StorageType.GetAt,
      Variant.holds_alternative, Variant.get, StdMap.find_insertOrAssign_of_ne hne]
  · intro h
    simp [SetAt, find_subscript_self, h, StorageType.SetAt, Variant.holds_alternative]
  · intro cell h hc
    simp [SetAt, find_subscript_self, h, StorageType.SetAt, hc]

theorem GetAt_SetAt_witness :
    StdMap.find 5 (⟨[(5, ⟨.map [(1, 10), (2, 20)]⟩)]⟩ : TypedMap Nat).storage_
      = some ⟨.map [(1, 10), (2, 20)]⟩ ∧
    GetAt 5 2 (SetAt 5 1 99 (⟨[(5, ⟨.map [(1, 10), (2, 20)]⟩)]⟩ : TypedMap Nat)) = some 20 :=
  ⟨by decide,
    ((GetAt_SetAt ⟨[(5, ⟨.map [(1, 10), (2, 20)]⟩)]⟩ 5 1 99).2.1 [(1, 10), (2, 20)] (by decide) 2
      (by decide)).trans (by decide)⟩

/-- C10: for a key of the mapping type, `Get<key>(subKey)` is `nullopt` exactly when
the key is unset, or its cell does not hold the mapping type, or the stored mapping
has no entry for `subKey`; otherwise it is present with the value mapped to
`subKey`.  `GetAt` is a total function: no call fails. -/
theorem GetAt_absent_iff (m : TypedMap EnumType) (key : EnumType) (subKey : Int) :
    (GetAt key subKey m = none ↔
      (StdMap.find key m.storage_ = none ∨
       (∃ cell, StdMap.find key m.storage_ = some cell ∧
          Variant.holds_alternative .map cell.internal_storage_ = false) ∨
       (∃ stored, StdMap.find key m.storage_ = some ⟨.map stored⟩ ∧
          StdMap.find subKey stored = none))) ∧
    (∀ stored value, StdMap.find key m.storage_ = some ⟨.map stored⟩ →
      StdMap.find subKey stored = some value → GetAt key subKey m = some value) := by
  constructor
  · cases h : StdMap.find key m.storage_ with
    | none => simp [GetAt, h]
    | some cell =>
      obtain ⟨stored⟩ := cell
      cases stored <;>
        simp [GetAt, h, StorageType.GetAt, Variant.holds_alternative, Variant.get]
  · intro stored value h hs
    simp [GetAt, h, StorageType.GetAt, Variant.holds_alternative, Variant.get, hs]

theorem GetAt_absent_iff_witness :
    StdMap.find 5 (⟨[(5, ⟨.map [(1, 10), (2, 20)]⟩)]⟩ : TypedMap Nat).storage_
      = some ⟨.map [(1, 10), (2, 20)]⟩ ∧
    StdMap.find 2 ([(1, 10), (2, 20)] : StdMap Int Int) = some 20 ∧
    GetAt 5 2 (⟨[(5, ⟨.map [(1, 10), (2, 20)]⟩)]⟩ : TypedMap Nat) = some 20 ∧
    GetAt 5 3 (⟨[(5, ⟨.map [(1, 10), (2, 20)]⟩)]⟩ : TypedMap Nat) = none :=
  ⟨by decide, by decide,
    (GetAt_absent_iff ⟨[(5, ⟨.map [(1, 10), (2, 20)]⟩)]⟩ 5 2).2 [(1, 10), (2, 20)] 20
      (by decide) (by decide),
    (GetAt_absent_iff ⟨[(5, ⟨.map [(1, 10), (2, 20)]⟩)]⟩ 5 3).1.mpr
      (Or.inr (Or.inr ⟨[(1, 10), (2, 20)], by decide, by decide⟩))⟩

end TypedMap

/-! ## More on the model of `std::map` -/

namespace StdMap

variable {κ ν : Type} [LinearOrder κ]

theorem mem_insertOrAssign {k : κ} {v : ν} {l : StdMap κ ν} {e : κ × ν}
    (he : e ∈ insertOrAssign k v l) : e = (k, v) ∨ e ∈ l := by
  induction l with
  | nil =>
    simp only [insertOrAssign, List.mem_singleton] at he
    exact Or.inl he
  | cons hd tl ih =>
    obtain ⟨a, b⟩ := hd
    rcases lt_trichotomy k a with h | h | h
    · simp only [insertOrAssign, h, if_true, List.mem_cons] at he
      rcases he with he | he | he
      · exact Or.inl he
      · exact Or.inr (List.mem_cons.mpr (Or.inl he))
      · exact Or.inr (List.mem_cons.mpr (Or.inr he))
    · subst h
      simp only [insertOrAssign, lt_irrefl, if_false, List.mem_cons] at he
      rcases he with he | he
      · exact Or.inl he
      · exact Or.inr (List.mem_cons.mpr (Or.inr he))
    · simp only [insertOrAssign, h, lt_asymm h, if_true, if_false, List.mem_cons] at he
      rcases he with he | he
      · exact Or.inr (List.mem_cons.mpr (Or.inl he))
      · rcases ih he with h2 | h2
        · exact Or.inl h2
        · exact Or.inr (List.mem_cons.mpr (Or.inr h2))

theorem mem_foldl_insertOrAssign {e : κ × ν} (l : StdMap κ ν) (acc : StdMap κ ν)
    (he : e ∈ List.foldl (fun acc status => insertOrAssign status.1 status.2 acc) acc l) :
    e ∈ acc ∨ e ∈ l := by
  induction l generalizing acc with
  | nil => exact Or.inl he
  | cons hd tl ih =>
    simp only [List.foldl_cons] at he
    rcases ih _ he with h | h
    · rcases mem_insertOrAssign h with h2 | h2
      · exact Or.inr (List.mem_cons.mpr (Or.inl h2))
      · exact Or.inl h2
    · exact Or.inr (List.mem_cons.mpr (Or.inr h))

theorem mem_of_find {k : κ} {c : ν} {l : StdMap κ ν} (h : find k l = some c) :
    (k, c) ∈ l := by
  induction l with
  | nil => simp [find] at h
  | cons hd tl ih =>
    obtain ⟨a, b⟩ := hd
    rcases lt_trichotomy k a with h1 | h1 | h1
    · simp [find, h1] at h
    · subst h1
      simp only [find, lt_irrefl, if_false, Option.some.injEq] at h
      subst h
      exact List.mem_cons_self _ _
    · simp only [find, h1, lt_asymm h1, if_true, if_false] at h
      exact List.mem_cons_of_mem _ (ih h)

theorem insertOrAssign_insertOrAssign (k : κ) (v1 v2 : ν) (l : StdMap κ ν) :
    insertOrAssign k v2 (insertOrAssign k v1 l) = insertOrAssign k v2 l := by
  induction l with
  | nil => simp [insertOrAssign]
  | cons hd tl ih =>
    obtain ⟨a, b⟩ := hd
    rcases lt_trichotomy k a with h | h | h
    · simp [insertOrAssign, h]
    · subst h; simp [insertOrAssign]
    · simp [insertOrAssign, h, lt_asymm h, ih]

theorem insertOrAssign_of_find {k : κ} {v : ν} {l : StdMap κ ν} (h : find k l = some v) :
    insertOrAssign k v l = l := by
  induction l with
  | nil => simp [find] at h
  | cons hd tl ih =>
    obtain ⟨a, b⟩ := hd
    rcases lt_trichotomy k a with h1 | h1 | h1
    · simp [find, h1] at h
    · subst h1
      simp only [find, lt_irrefl, if_false, Option.some.injEq] at h
      simp [insertOrAssign, h]
    · simp only [find, h1, lt_asymm h1, if_true, if_false] at h
      simp [insertOrAssign, h1, lt_asymm h1, ih h]

theorem mem_keys_foldl_insertOrAssign {x : κ} (l : StdMap κ ν) (acc : StdMap κ ν) :
    x ∈ keys (List.foldl (fun acc status => insertOrAssign status.1 status.2 acc) acc l)
      ↔ x ∈ keys acc ∨ x ∈ keys l := by
  induction l generalizing acc with
  | nil => simp [keys]
  | cons hd tl ih =>
    simp only [List.foldl_cons, ih]
    simp only [keys, mem_keys_insertOrAssign, List.map_cons, List.mem_cons]
    tauto

theorem ext_of_find {l1 l2 : StdMap κ ν} (h1 : WF l1) (h2 : WF l2)
    (h : ∀ k, find k l1 = find k l2) : l1 = l2 := by
  induction l1 generalizing l2 with
  | nil =>
    cases l2 with
    | nil => rfl
    | cons hd tl =>
      obtain ⟨a, b⟩ := hd
      have := h a
      simp [find] at this
  | cons hd1 tl1 ih =>
    obtain ⟨a1, b1⟩ := hd1
    cases l2 with
    | nil =>
      have := h a1
      simp [find] at this
    | cons hd2 tl2 =>
      obtain ⟨a2, b2⟩ := hd2
      rw [wf_cons] at h1 h2
      have ha : a1 = a2 := by
        rcases lt_trichotomy a1 a2 with hlt | heq | hgt
        · have := h a1
          simp [find, hlt] at this
        · exact heq
        · have := h a2
          simp [find, hgt] at this
      subst ha
      have hb : b1 = b2 := by
        have := h a1
        simpa [find] using this
      subst hb
      have htl : tl1 = tl2 := by
        apply ih h1.2 h2.2
        intro k
        rcases lt_trichotomy k a1 with hlt | heq | hgt
        · rw [find_eq_none_of_forall_lt (fun x hx => lt_trans hlt (h1.1 x hx)),
            find_eq_none_of_forall_lt (fun x hx => lt_trans hlt (h2.1 x hx))]
        · subst heq
          rw [find_eq_none_of_forall_lt h1.1, find_eq_none_of_forall_lt h2.1]
        · have := h k
          simpa [find, hgt, lt_asymm hgt] using this
      rw [htl]

end StdMap

/-! ## Optional writes and raw access -/

namespace TypedMap

variable {EnumType : Type} [LinearOrder EnumType]

/-- C11: `MaybeSet<key>` with an empty optional returns the map as it was, and with an
optional holding `v` it returns the very map `Set<key>(v)` returns. -/
theorem MaybeSet_eq (m : TypedMap EnumType) (key : EnumType) :
    MaybeSet key none m = m ∧
    (∀ v : Variant, MaybeSet key (some v) m = Set key v m) :=
  ⟨rfl, fun _ => rfl⟩

/-- C12: `GetRawAs<T>(key)` is a total function.  When the key is unset and when its
cell holds another alternative than `T` it is the absence value (`nullopt` for a
scalar `T`, the empty `T` for a container), and when the cell holds a `T` it is the
stored value (wrapped as present for a scalar `T`). -/
theorem GetRawAs_cases (m : TypedMap EnumType) (key : EnumType) :
    (StdMap.find key m.storage_ = none →
      GetRawAs .int key m = none ∧ GetRawAs .char key m = none ∧
      GetRawAs .bool key m = none ∧ GetRawAs .vector key m = [] ∧
      GetRawAs .map key m = [] ∧ GetRawAs .set key m = []) ∧
    (∀ cell, StdMap.find key m.storage_ = some cell →
      (Variant.holds_alternative .int cell.internal_storage_ = false →
        GetRawAs .int key m = none) ∧
      (Variant.holds_alternative .char cell.internal_storage_ = false →
        GetRawAs .char key m = none) ∧
      (Variant.holds_alternative .bool cell.internal_storage_ = false →
        GetRawAs .bool key m = none) ∧
      (Variant.holds_alternative .vector cell.internal_storage_ = false →
        GetRawAs .vector key m = []) ∧
      (Variant.holds_alternative .map cell.internal_storage_ = false →
        GetRawAs .map key m = []) ∧
      (Variant.holds_alternative .set cell.internal_storage_ = false →
        GetRawAs .set key m = [])) ∧
    ((∀ v : Int, StdMap.find key m.storage_ = some ⟨.int v⟩ → GetRawAs .int key m = some v) ∧
      (∀ v : Char, StdMap.find key m.storage_ = some ⟨.char v⟩ →
        GetRawAs .char key m = some v) ∧
      (∀ v : Bool, StdMap.find key m.storage_ = some ⟨.bool v⟩ →
        GetRawAs .bool key m = some v) ∧
      (∀ v : List Int, StdMap.find key m.storage_ = some ⟨.vector v⟩ →
        GetRawAs .vector key m = v) ∧
      (∀ v : StdMap Int Int, StdMap.find key m.storage_ = some ⟨.map v⟩ →
        GetRawAs .map key m = v) ∧
      (∀ v : StdSet Int, StdMap.find key m.storage_ = some ⟨.set v⟩ →
        GetRawAs .set key m = v)) := by
  refine ⟨?_, ?_, ?_⟩
  · intro h
    simp [GetRawAs, GetRawAs.notContainer, GetRawAs.container, h, Ty.default]
  · intro cell h
    refine ⟨?_, ?_, ?_, ?_, ?_, ?_⟩ <;> intro hc <;>
      simp [GetRawAs, GetRawAs.notContainer, GetRawAs.container, h, hc, Ty.default]
  · refine ⟨?_, ?_, ?_, ?_, ?_, ?_⟩ <;> intro v h <;>
      simp [GetRawAs, GetRawAs.notContainer, GetRawAs.container, h,
        Variant.holds_alternative, Variant.get]

/-- C13: the typed read agrees with the raw read at the declared type of the key:
`Get<key>()` equals `GetRawAs<T>(key)` for `T` the declared type, on every map, also
when the key is unset or its cell holds another type. -/
theorem Get_eq_GetRawAs (m : TypedMap EnumType) (key : EnumType) (desired_type : Ty) :
    Get desired_type key m = GetRawAs desired_type key m := by
  cases desired_type <;>
    simp only [Get, Get.scalar, Get.container, GetRawAs, GetRawAs.notContainer,
      GetRawAs.container] <;>
    cases h : StdMap.find key m.storage_ with
    | none => rfl
    | some cell =>
      obtain ⟨stored⟩ := cell
      cases stored <;> simp [StorageType.Get, Variant.holds_alternative, Variant.get]

theorem mem_KeySet_iff (m : TypedMap EnumType) (k : EnumType) :
    k ∈ KeySet m ↔ k ∈ StdMap.keys m.storage_ :=
  StdSet.mem_ofRange _

theorem mem_KeySet_subscript (enum_value : EnumType) (method : StorageType → StorageType)
    (m : TypedMap EnumType) : enum_value ∈ KeySet (subscript enum_value method m) := by
  rw [mem_KeySet_iff]
  exact StdMap.mem_keys_insertOrAssign.mpr (Or.inl rfl)

/-- C14: `SetRaw(key, v)` stores `v` as the alternative of its own type, whatever
the key is declared as and whatever its cell held: afterwards the key is present,
its cell is `v`, `GetRawAs<T>(key)` at the type `T` of `v` yields `v`, and the map is
the one `Set<key>(v)` returns, so `Get<key>()` reads the same after both. -/
theorem GetRawAs_SetRaw (m : TypedMap EnumType) (key : EnumType) :
    (∀ v : Variant, key ∈ KeySet (SetRaw key v m) ∧
      StdMap.find key (SetRaw key v m).storage_ = some ⟨v⟩ ∧
      SetRaw key v m = Set key v m ∧
      ∀ T, Get T key (SetRaw key v m) = Get T key (Set key v m)) ∧
    (∀ v : Int, GetRawAs .int key (SetRaw key (.int v) m) = some v) ∧
    (∀ v : Char, GetRawAs .char key (SetRaw key (.char v) m) = some v) ∧
    (∀ v : Bool, GetRawAs .bool key (SetRaw key (.bool v) m) = some v) ∧
    (∀ v : List Int, GetRawAs .vector key (SetRaw key (.vector v) m) = v) ∧
    (∀ v : StdMap Int Int, GetRawAs .map key (SetRaw key (.map v) m) = v) ∧
    (∀ v : StdSet Int, GetRawAs .set key (SetRaw key (.set v) m) = v) := by
  refine ⟨?_, ?_, ?_, ?_, ?_, ?_, ?_⟩
  · intro v
    exact ⟨mem_KeySet_subscript _ _ _, find_subscript_self _ _ _, rfl, fun _ => rfl⟩
  all_goals
    intro v
    simp [GetRawAs, GetRawAs.notContainer, GetRawAs.container, SetRaw, find_subscript_self,
      Variant.holds_alternative, Variant.get]

/-! ## In-place editing -/

theorem StorageType.Mutable_of_not_holds (desired_type : Ty)
    (edit : desired_type.type → desired_type.type) (s : StorageType)
    (h : Variant.holds_alternative desired_type s.internal_storage_ = false) :
    StorageType.Mutable desired_type edit s
      = ⟨Variant.ofType desired_type (edit desired_type.default)⟩ := by
  obtain ⟨stored⟩ := s
  cases desired_type <;> cases stored <;>
    simp_all [StorageType.Mutable, StorageType.ensure, Variant.holds_alternative, Variant.get,
      Variant.ofType]

theorem StorageType.Mutable_of_get (desired_type : Ty)
    (edit : desired_type.type → desired_type.type) (s : StorageType) (x : desired_type.type)
    (h : Variant.get desired_type s.internal_storage_ = some x) :
    StorageType.Mutable desired_type edit s = ⟨Variant.ofType desired_type (edit x)⟩ := by
  obtain ⟨stored⟩ := s
  cases desired_type <;> cases stored <;>
    simp_all [StorageType.Mutable, StorageType.ensure, Variant.holds_alternative, Variant.get,
      Variant.ofType]

theorem StorageType.Mutable_id_of_holds (desired_type : Ty) (s : StorageType)
    (h : Variant.holds_alternative desired_type s.internal_storage_ = true) :
    StorageType.Mutable desired_type id s = s := by
  obtain ⟨stored⟩ := s
  cases desired_type <;> cases stored <;>
    simp_all [StorageType.Mutable, StorageType.ensure, Variant.holds_alternative, Variant.get,
      Variant.ofType]

theorem Get_of_find_ofType (m : TypedMap EnumType) (key : EnumType) :
    (∀ v : Int, StdMap.find key m.storage_ = some ⟨.int v⟩ → Get .int key m = some v) ∧
    (∀ v : Char, StdMap.find key m.storage_ = some ⟨.char v⟩ → Get .char key m = some v) ∧
    (∀ v : Bool, StdMap.find key m.storage_ = some ⟨.bool v⟩ → Get .bool key m = some v) ∧
    (∀ v : List Int, StdMap.find key m.storage_ = some ⟨.vector v⟩ →
      Get .vector key m = v) ∧
    (∀ v : StdMap Int Int, StdMap.find key m.storage_ = some ⟨.map v⟩ → Get .map key m = v) ∧
    (∀ v : StdSet Int, StdMap.find key m.storage_ = some ⟨.set v⟩ → Get .set key m = v) := by
  refine ⟨?_, ?_, ?_, ?_, ?_, ?_⟩ <;> intro v h <;>
    simp [Get, Get.scalar, Get.container, h, StorageType.Get, Variant.holds_alternative,
      Variant.get]

/-- C15: `Mutable<key>()` makes sure the key has a cell of the declared type and
hands out that cell for editing.  When the key is unset or its cell holds another
type, the cell afterwards is the default value of the declared type with the
caller's write applied, so without a write `Get<key>()` is present zero for a scalar
and empty for a container; when the cell holds a value of the declared type, the
write applies to that value and without a write the map is unchanged; the entries of
all other keys are unchanged; and a value assigned through the reference is what
`Get<key>()` returns next. -/
theorem Mutable_ensures (m : TypedMap EnumType) (key : EnumType) :
    (∀ (T : Ty) (edit : T.type → T.type),
      (∀ cell, StdMap.find key m.storage_ = some cell →
        Variant.holds_alternative T cell.internal_storage_ = false) →
      key ∈ KeySet (Mutable T key edit m) ∧
      StdMap.find key (Mutable T key edit m).storage_
        = some ⟨Variant.ofType T (edit T.default)⟩) ∧
    ((∀ cell, StdMap.find key m.storage_ = some cell →
        Variant.holds_alternative .int cell.internal_storage_ = false) →
      Get .int key (Mutable .int key id m) = some 0) ∧
    ((∀ cell, StdMap.find key m.storage_ = some cell →
        Variant.holds_alternative .char cell.internal_storage_ = false) →
      Get .char key (Mutable .char key id m) = some (Char.ofNat 0)) ∧
    ((∀ cell, StdMap.find key m.storage_ = some cell →
        Variant.holds_alternative .bool cell.internal_storage_ = false) →
      Get .bool key (Mutable .bool key id m) = some false) ∧
    ((∀ cell, StdMap.find key m.storage_ = some cell →
        Variant.holds_alternative .vector cell.internal_storage_ = false) →
      Get .vector key (Mutable .vector key id m) = []) ∧
    ((∀ cell, StdMap.find key m.storage_ = some cell →
        Variant.holds_alternative .map cell.internal_storage_ = false) →
      Get .map key (Mutable .map key id m) = []) ∧
    ((∀ cell, StdMap.find key m.storage_ = some cell →
        Variant.holds_alternative .set cell.internal_storage_ = false) →
      Get .set key (Mutable .set key id m) = []) ∧
    (∀ (T : Ty) (edit : T.type → T.type) (cell : StorageType) (x : T.type),
      StdMap.find key m.storage_ = some cell →
      Variant.get T cell.internal_storage_ = some x →
      StdMap.find key (Mutable T key edit m).storage_ = some ⟨Variant.ofType T (edit x)⟩) ∧
    (∀ (T : Ty) (cell : StorageType), StdMap.find key m.storage_ = some cell →
      Variant.holds_alternative T cell.internal_storage_ = true →
      Mutable T key id m = m) ∧
    (∀ (T : Ty) (edit : T.type → T.type) (k2 : EnumType), k2 ≠ key →
      StdMap.find k2 (Mutable T key edit m).storage_ = StdMap.find k2 m.storage_) ∧
    (∀ v : Int, Get .int key (Mutable .int key (fun _ => v) m) = some v) ∧
    (∀ v : Char, Get .char key (Mutable .char key (fun _ => v) m) = some v) ∧
    (∀ v : Bool, Get .bool key (Mutable .bool key (fun _ => v) m) = some v) ∧
    (∀ v : List Int, Get .vector key (Mutable .vector key (fun _ => v) m) = v) ∧
    (∀ v : StdMap Int Int, Get .map key (Mutable .map key (fun _ => v) m) = v) ∧
    (∀ v : StdSet Int, Get .set key (Mutable .set key (fun _ => v) m) = v) := by
  have fresh : ∀ (T : Ty) (edit : T.type → T.type),
      (∀ cell, StdMap.find key m.storage_ = some cell →
        Variant.holds_alternative T cell.internal_storage_ = false) →
      StdMap.find key (Mutable T key edit m).storage_
        = some ⟨Variant.ofType T (edit T.default)⟩ := by
    intro T edit hno
    simp only [Mutable, find_subscript_self]
    congr 1
    apply StorageType.Mutable_of_not_holds
    cases h : StdMap.find key m.storage_ with
    | none => cases T <;> rfl
    | some cell => exact hno cell h
  have assigned : ∀ (T : Ty) (v : T.type),
      StdMap.find key (Mutable T key (fun _ => v) m).storage_
        = some ⟨Variant.ofType T v⟩ := by
    intro T v
    simp only [Mutable, find_subscript_self]
    congr 1
    generalize (StdMap.find key m.storage_).getD {} = s
    obtain ⟨stored⟩ := s
    cases T <;> cases stored <;>
      simp [StorageType.Mutable, StorageType.ensure, Variant.holds_alternative, Variant.get,
        Variant.ofType]
  have read := fun (n : TypedMap EnumType) => Get_of_find_ofType n key
  refine ⟨fun T edit hno => ⟨mem_KeySet_subscript _ _ _, fresh T edit hno⟩,
    fun hno => (read _).1 _ (fresh .int id hno),
    fun hno => (read _).2.1 _ (fresh .char id hno),
    fun hno => (read _).2.2.1 _ (fresh .bool id hno),
    fun hno => (read _).2.2.2.1 _ (fresh .vector id hno),
    fun hno => (read _).2.2.2.2.1 _ (fresh .map id hno),
    fun hno => (read _).2.2.2.2.2 _ (fresh .set id hno),
    ?_, ?_, ?_,
    fun v => (read _).1 _ (assigned .int v),
    fun v => (read _).2.1 _ (assigned .char v),
    fun v => (read _).2.2.1 _ (assigned .bool v),
    fun v => (read _).2.2.2.1 _ (assigned .vector v),
    fun v => (read _).2.2.2.2.1 _ (assigned .map v),
    fun v => (read _).2.2.2.2.2 _ (assigned .set v)⟩
  · intro T edit cell x h hx
    simp only [Mutable, find_subscript_self, h, Option.getD_some]
    rw [StorageType.Mutable_of_get T edit cell x hx]
  · intro T cell h hc
    simp only [Mutable, subscript, h, Option.getD_some,
      StorageType.Mutable_id_of_holds T cell hc]
    rw [StdMap.insertOrAssign_of_find h]
  · intro T edit k2 hne
    exact find_subscript_of_ne hne _ _

/-! ## Overwriting and merging -/

/-- C18: `Set<key>(v)` overwrites the entry of `key` only.  Every other key has the
same entry after the call as before, the cell of `key` afterwards is `v`, and what
the cell held before has no influence: `Set<key>(v1)` followed by `Set<key>(v2)`
yields the same map as `Set<key>(v2)` alone. -/
theorem Set_overwrites (m : TypedMap EnumType) (key : EnumType) :
    (∀ (v : Variant) (k2 : EnumType), k2 ≠ key →
      StdMap.find k2 (Set key v m).storage_ = StdMap.find k2 m.storage_) ∧
    (∀ v : Variant, StdMap.find key (Set key v m).storage_ = some ⟨v⟩) ∧
    (∀ v1 v2 : Variant, Set key v2 (Set key v1 m) = Set key v2 m) := by
  refine ⟨fun v k2 hne => find_subscript_of_ne hne _ _,
    fun v => find_subscript_self _ _ _, fun v1 v2 => ?_⟩
  simp only [Set, subscript, StorageType.Set, StdMap.insertOrAssign_insertOrAssign]

theorem eq_of_find_storage {m1 m2 : TypedMap EnumType} (h1 : WF m1) (h2 : WF m2)
    (h : ∀ k, StdMap.find k m1.storage_ = StdMap.find k m2.storage_) : m1 = m2 := by
  obtain ⟨l1⟩ := m1
  obtain ⟨l2⟩ := m2
  simp only [TypedMap.mk.injEq]
  exact StdMap.ext_of_find h1 h2 h

theorem find_Merge (m : TypedMap EnumType) {other : TypedMap EnumType} (ho : WF other)
    (k : EnumType) :
    StdMap.find k (Merge m other).storage_
      = (StdMap.find k other.storage_).orElse (fun _ => StdMap.find k m.storage_) :=
  StdMap.find_foldl_insertOrAssign k ho m.storage_

/-- C19: `Merge` is associative and the empty map is its identity on both sides:
`(A.Merge(B)).Merge(C)` and `A.Merge(B.Merge(C))` are the same map (the same keys
with the same cells), and merging the empty map into `A`, or `A` into the empty map,
yields `A`. -/
theorem Merge_assoc_identity (A B C : TypedMap EnumType) (hA : WF A) (hB : WF B)
    (hC : WF C) :
    Merge (Merge A B) C = Merge A (Merge B C) ∧
    Merge A {} = A ∧
    Merge {} A = A := by
  refine ⟨?_, rfl, ?_⟩
  · apply eq_of_find_storage (wf_Merge (wf_Merge hA)) (wf_Merge hA)
    intro k
    rw [find_Merge _ hC, find_Merge _ hB, find_Merge _ (wf_Merge hB), find_Merge _ hC]
    cases StdMap.find k C.storage_ <;> simp
  · apply eq_of_find_storage (wf_Merge wf_empty) hA
    intro k
    rw [find_Merge _ hA]
    cases StdMap.find k A.storage_ <;> simp [StdMap.find]

theorem Merge_assoc_identity_witness :
    WF (⟨[(0, ⟨.char 'x'⟩), (1, ⟨.int 1⟩)]⟩ : TypedMap Nat) ∧
    WF (⟨[(1, ⟨.int 2⟩), (2, ⟨.vector [5]⟩)]⟩ : TypedMap Nat) ∧
    WF (⟨[(0, ⟨.char 'y'⟩), (2, ⟨.vector [7]⟩)]⟩ : TypedMap Nat) ∧
    Merge (Merge ⟨[(0, ⟨.char 'x'⟩), (1, ⟨.int 1⟩)]⟩ ⟨[(1, ⟨.int 2⟩), (2, ⟨.vector [5]⟩)]⟩)
        (⟨[(0, ⟨.char 'y'⟩), (2, ⟨.vector [7]⟩)]⟩ : TypedMap Nat)
      = ⟨[(0, ⟨.char 'y'⟩), (1, ⟨.int 2⟩), (2, ⟨.vector [7]⟩)]⟩ ∧
    Merge ⟨[(0, ⟨.char 'x'⟩), (1, ⟨.int 1⟩)]⟩
        (Merge ⟨[(1, ⟨.int 2⟩), (2, ⟨.vector [5]⟩)]⟩
          (⟨[(0, ⟨.char 'y'⟩), (2, ⟨.vector [7]⟩)]⟩ : TypedMap Nat))
      = ⟨[(0, ⟨.char 'y'⟩), (1, ⟨.int 2⟩), (2, ⟨.vector [7]⟩)]⟩ :=
  ⟨by decide, by decide, by decide, by decide,
    ((Merge_assoc_identity ⟨[(0, ⟨.char 'x'⟩), (1, ⟨.int 1⟩)]⟩
      ⟨[(1, ⟨.int 2⟩), (2, ⟨.vector [5]⟩)]⟩ ⟨[(0, ⟨.char 'y'⟩), (2, ⟨.vector [7]⟩)]⟩
      (by decide) (by decide) (by decide)).1.symm).trans (by decide)⟩

/-- C20: the key set after `A.Merge(B)` is the union of `A.KeySet()` and
`B.KeySet()`: no key of either operand is lost and no key of neither appears. -/
theorem KeySet_Merge (A B : TypedMap EnumType) (k : EnumType) :
    k ∈ KeySet (Merge A B) ↔ k ∈ KeySet A ∨ k ∈ KeySet B := by
  simp only [mem_KeySet_iff, Merge]
  exact StdMap.mem_keys_foldl_insertOrAssign _ _

/-! ## Invariants of the reachable maps -/

theorem ne_monostate_of_holds {T : Ty} {v : Variant}
    (h : Variant.holds_alternative T v = true) : v ≠ Variant.monostate := by
  intro hv
  subst hv
  cases T <;> simp [Variant.holds_alternative] at h

theorem holds_SetAt (key value : Int) (s : StorageType) :
    Variant.holds_alternative .map (StorageType.SetAt key value s).internal_storage_ = true := by
  obtain ⟨stored⟩ := s
  cases stored <;> simp [StorageType.SetAt, Variant.holds_alternative, Variant.get]

theorem holds_Mutable (T : Ty) (edit : T.type → T.type) (s : StorageType) :
    Variant.holds_alternative T (StorageType.Mutable T edit s).internal_storage_ = true := by
  obtain ⟨stored⟩ := s
  cases T <;> cases stored <;>
    simp [StorageType.Mutable, StorageType.ensure, Variant.holds_alternative, Variant.get,
      Variant.ofType]

theorem holds_Add (T : Ty) (value : T.value_type) (s : StorageType) :
    Variant.holds_alternative T (StorageType.Add T value s).internal_storage_ = true := by
  obtain ⟨stored⟩ := s
  cases T
  case int => exact nomatch value
  case char => exact nomatch value
  case bool => exact nomatch value
  all_goals
    cases stored <;>
      simp [StorageType.Add, StorageType.ensure, Variant.holds_alternative, Variant.get,
        Variant.ofType]

theorem mem_subscript {enum_value : EnumType} {method : StorageType → StorageType}
    {m : TypedMap EnumType} {e : EnumType × StorageType}
    (he : e ∈ (subscript enum_value method m).storage_) :
    e = (enum_value, method ((StdMap.find enum_value m.storage_).getD {})) ∨
      e ∈ m.storage_ :=
  StdMap.mem_insertOrAssign he

/-- C16, as the code has it: in every map reachable from the empty map through the
public operations (`Set`, `Set` with a sub-key, `MaybeSet`, `Mutable`, `Add`,
`Unset`, `Merge`, `SetRaw`) in which no call of `Set`, `MaybeSet` or `SetRaw` is
passed `std::monostate`, every entry has a non-empty cell. -/
theorem nonempty_cells_of_reachable (TypeOf : EnumType → Option Ty) (m : TypedMap EnumType)
    (h : Reachable TypeOf (fun _ value => value ≠ Variant.monostate)
      (fun _ value => value ≠ Variant.monostate) m) :
    (∀ e ∈ m.storage_, e.2.internal_storage_ ≠ Variant.monostate) ∧
    (∀ k cell, StdMap.find k m.storage_ = some cell →
      cell.internal_storage_ ≠ Variant.monostate) := by
  have entries : ∀ e ∈ m.storage_, e.2.internal_storage_ ≠ Variant.monostate := by
    induction h with
    | created => intro e he; cases he
    | afterSet enum_value value hv _ ih =>
      intro e he
      rcases mem_subscript he with h1 | h1
      · subst h1; exact hv
      · exact ih e h1
    | afterSetAt enum_value key value _ _ ih =>
      intro e he
      rcases mem_subscript he with h1 | h1
      · subst h1; exact ne_monostate_of_holds (holds_SetAt _ _ _)
      · exact ih e h1
    | afterMaybeSet enum_value param hv _ ih =>
      intro e he
      cases param with
      | none => exact ih e he
      | some value =>
        rcases mem_subscript he with h1 | h1
        · subst h1; exact hv value rfl
        · exact ih e h1
    | afterMutable enum_value desired_type edit _ _ ih =>
      intro e he
      rcases mem_subscript he with h1 | h1
      · subst h1; exact ne_monostate_of_holds (holds_Mutable _ _ _)
      · exact ih e h1
    | afterAdd enum_value desired_type value _ _ ih =>
      intro e he
      rcases mem_subscript he with h1 | h1
      · subst h1; exact ne_monostate_of_holds (holds_Add _ _ _)
      · exact ih e h1
    | afterUnset type _ ih =>
      intro e he
      exact ih e ((StdMap.erase_sublist _ _).subset he)
    | afterMerge _ _ ih1 ih2 =>
      intro e he
      rcases StdMap.mem_foldl_insertOrAssign _ _ he with h1 | h1
      · exact ih1 e h1
      · exact ih2 e h1
    | afterSetRaw enum_value value hv _ ih =>
      intro e he
      rcases mem_subscript he with h1 | h1
      · subst h1; exact hv
      · exact ih e h1
  exact ⟨entries, fun k cell hk => entries (k, cell) (StdMap.mem_of_find hk)⟩

theorem nonempty_cells_of_reachable_witness :
    Reachable Test.TypeOf (fun _ value => value ≠ Variant.monostate)
      (fun _ value => value ≠ Variant.monostate)
      (Unset 1 (Add .vector 3 7 (SetRaw 1 (.char 'a') ({} : TypedMap Nat)))) ∧
    ∀ e ∈ (Unset 1 (Add .vector 3 7 (SetRaw 1 (.char 'a') ({} : TypedMap Nat)))).storage_,
      e.2.internal_storage_ ≠ Variant.monostate :=
  ⟨Reachable.afterUnset 1 (Reachable.afterAdd 3 .vector 7 rfl
      (Reachable.afterSetRaw 1 (.char 'a') (by decide) Reachable.created)),
    (nonempty_cells_of_reachable Test.TypeOf _
      (Reachable.afterUnset 1 (Reachable.afterAdd 3 .vector 7 rfl
        (Reachable.afterSetRaw 1 (.char 'a') (by decide) Reachable.created)))).1⟩

/-- Counterexample to C16 as stated: `SetRaw(TEST_ENUM_VALUE_1, std::monostate{})` on a
newly created map is a call of a public operation, and it leaves an entry for the
key whose cell is empty: the key is in `KeySet()` and `Get` reads `nullopt`. -/
theorem SetRaw_monostate_entry :
    Reachable Test.TypeOf (fun _ _ => True) (fun _ _ => True)
      (SetRaw Test.TEST_ENUM_VALUE_1 Variant.monostate ({} : TypedMap Nat)) ∧
    (SetRaw Test.TEST_ENUM_VALUE_1 Variant.monostate ({} : TypedMap Nat)).storage_
      = [(Test.TEST_ENUM_VALUE_1, ⟨Variant.monostate⟩)] ∧
    KeySet (SetRaw Test.TEST_ENUM_VALUE_1 Variant.monostate ({} : TypedMap Nat))
      = [Test.TEST_ENUM_VALUE_1] ∧
    Get .char Test.TEST_ENUM_VALUE_1
      (SetRaw Test.TEST_ENUM_VALUE_1 Variant.monostate ({} : TypedMap Nat)) = none :=
  ⟨Reachable.afterSetRaw _ _ trivial Reachable.created, by decide, by decide, by decide⟩

theorem declared_type_of_reachable (TypeOf : EnumType → Option Ty) (m : TypedMap EnumType)
    (h : Reachable TypeOf
      (fun k value => ∃ T, TypeOf k = some T ∧ Variant.holds_alternative T value = true)
      (fun _ _ => False) m) :
    ∀ e ∈ m.storage_,
      ∃ T, TypeOf e.1 = some T ∧ Variant.holds_alternative T e.2.internal_storage_ = true := by
  induction h with
  | created => intro e he; cases he
  | afterSet enum_value value hv _ ih =>
    intro e he
    rcases mem_subscript he with h1 | h1
    · subst h1; exact hv
    · exact ih e h1
  | afterSetAt enum_value key value hT _ ih =>
    intro e he
    rcases mem_subscript he with h1 | h1
    · subst h1; exact ⟨.map, hT, holds_SetAt _ _ _⟩
    · exact ih e h1
  | afterMaybeSet enum_value param hv _ ih =>
    intro e he
    cases param with
    | none => exact ih e he
    | some value =>
      rcases mem_subscript he with h1 | h1
      · subst h1; exact hv value rfl
      · exact ih e h1
  | afterMutable enum_value desired_type edit hT _ ih =>
    intro e he
    rcases mem_subscript he with h1 | h1
    · subst h1; exact ⟨desired_type, hT, holds_Mutable _ _ _⟩
    · exact ih e h1
  | afterAdd enum_value desired_type value hT _ ih =>
    intro e he
    rcases mem_subscript he with h1 | h1
    · subst h1; exact ⟨desired_type, hT, holds_Add _ _ _⟩
    · exact ih e h1
  | afterUnset type _ ih =>
    intro e he
    exact ih e ((StdMap.erase_sublist _ _).subset he)
  | afterMerge _ _ ih1 ih2 =>
    intro e he
    rcases StdMap.mem_foldl_insertOrAssign _ _ he with h1 | h1
    · exact ih1 e h1
    · exact ih2 e h1
  | afterSetRaw enum_value value hv _ ih => exact absurd hv id

/-- C17 fails on the code: `Set<TEST_ENUM_VALUE_2>('a')` on a newly created map uses
typed operations only, `TEST_ENUM_VALUE_2` is declared `int`, and the cell stored for
it holds the `char` alternative, so that `Get<TEST_ENUM_VALUE_2>()` reads `nullopt`
right after the write. -/
theorem typed_Set_stores_other_type :
    Reachable Test.TypeOf (fun _ _ => True) (fun _ _ => False)
      (Set Test.TEST_ENUM_VALUE_2 (.char 'a') ({} : TypedMap Nat)) ∧
    Test.TypeOf Test.TEST_ENUM_VALUE_2 = some Ty.int ∧
    StdMap.find Test.TEST_ENUM_VALUE_2
      (Set Test.TEST_ENUM_VALUE_2 (.char 'a') ({} : TypedMap Nat)).storage_
      = some ⟨.char 'a'⟩ ∧
    Variant.holds_alternative .int (.char 'a') = false ∧
    Get .int Test.TEST_ENUM_VALUE_2
      (Set Test.TEST_ENUM_VALUE_2 (.char 'a') ({} : TypedMap Nat)) = none :=
  ⟨Reachable.afterSet _ _ trivial Reachable.created, by decide, by decide, by decide,
    by decide⟩

end TypedMap

end utils.map
